import Mathlib

/-!
Verification of the layout engine in `FigureAgent/layout_figure.py`
(`compute_layout` and `_assign_layers`) together with the data model of
`FigureAgent/types.py`.

Python dictionaries are modelled as association lists that preserve
insertion order (assignment to an existing key keeps its position, a new
key goes to the end), matching CPython dict semantics.  Python floats are
modelled as rationals; every arithmetic operation performed by the source
(addition, multiplication by small integers, division by two) is exact on
the inputs the claims concern.  Uncaught Python exceptions are modelled by
the `PyErr` error type, and the unbounded `while queue:` loop is modelled
with explicit fuel: `none` means the loop has not finished within the
given fuel, so `∀ fuel, … = none` states non-termination.
-/

/-- Mirrors dataclass `FigureNode` of `types.py`. -/
structure FigureNode where
  identifier : String
  label : String
  node_type : String
  metadata : List (String × String)
deriving DecidableEq

/-- Mirrors dataclass `FigureEdge` of `types.py`. -/
structure FigureEdge where
  source : String
  target : String
  label : Option String
deriving DecidableEq

/-- Mirrors dataclass `FigurePlan` of `types.py`. -/
structure FigurePlan where
  nodes : List FigureNode
  edges : List FigureEdge
  title : Option String
  description : Option String
deriving DecidableEq

/-- Mirrors dataclass `PositionedNode` of `types.py` (a `FigureNode` plus
coordinates, flattened). -/
structure PositionedNode where
  identifier : String
  label : String
  node_type : String
  metadata : List (String × String)
  x : ℚ
  y : ℚ
deriving DecidableEq

/-- Mirrors dataclass `LayoutResult` of `types.py`. -/
structure LayoutResult where
  width : ℚ
  height : ℚ
  nodes : List PositionedNode
  edges : List FigureEdge
deriving DecidableEq

/-- Uncaught Python exceptions that `compute_layout` can raise:
`indexError` models `IndexError` (`plan.nodes[0]` on an empty list),
`keyError k` models `KeyError` on a dict lookup, and `layoutError`
models the `LayoutError` class declared in `layout_figure.py`
(the source defines it but never raises it). -/
inductive PyErr where
  | indexError
  | keyError (key : String)
  | layoutError (msg : String)
deriving DecidableEq

/-- Dict lookup (`m[k]` / `k in m`): first binding of the key, if any. -/
def alGet {κ β : Type} [DecidableEq κ] : List (κ × β) → κ → Option β
  | [], _ => none
  | p :: rest, k => if p.1 = k then some p.2 else alGet rest k

/-- Dict assignment `m[k] = v`: update in place, or append a new binding,
as CPython dicts do. -/
def alSet {κ β : Type} [DecidableEq κ] : List (κ × β) → κ → β → List (κ × β)
  | [], k, v => [(k, v)]
  | p :: rest, k, v => if p.1 = k then (k, v) :: rest else p :: alSet rest k v

/-- `m.setdefault(k, v)`: insert only when the key is absent. -/
def alSetdefault {κ β : Type} [DecidableEq κ] : List (κ × β) → κ → β → List (κ × β)
  | [], k, v => [(k, v)]
  | p :: rest, k, v => if p.1 = k then p :: rest else p :: alSetdefault rest k v

/-- `defaultdict(list)` append: `m[k].append(v)`. -/
def alPush {κ β : Type} [DecidableEq κ] : List (κ × List β) → κ → β → List (κ × List β)
  | [], k, v => [(k, [v])]
  | p :: rest, k, v => if p.1 = k then (p.1, p.2 ++ [v]) :: rest else p :: alPush rest k v

/-- `DEFAULT_CANVAS_SIZE = (800.0, 600.0)`. -/
def DEFAULT_CANVAS_SIZE : ℚ × ℚ := (800, 600)

/-- `NODE_SPACING = (200.0, 140.0)`. -/
def NODE_SPACING : ℚ × ℚ := (200, 140)

/-- `MARGIN = 60.0`. -/
def MARGIN : ℚ := 60

/-- `FigurePlan.node_map`: `{node.identifier: node for node in self.nodes}`
(later duplicates overwrite earlier ones, as in a dict comprehension). -/
def node_map (plan : FigurePlan) : List (String × FigureNode) :=
  plan.nodes.foldl (fun m n => alSet m n.identifier n) []

/-- First loop of `_assign_layers`: `incoming[edge.target].append(edge.source)`. -/
def build_incoming (edges : List FigureEdge) : List (String × List String) :=
  edges.foldl (fun m e => alPush m e.target e.source) []

/-- First loop of `_assign_layers`: `outgoing[edge.source].append(edge.target)`. -/
def build_outgoing (edges : List FigureEdge) : List (String × List String) :=
  edges.foldl (fun m e => alPush m e.source e.target) []

/-- Inner `for neighbor in outgoing.get(current, [])` loop of
`_assign_layers`: relax each neighbour to `current_level + 1` when that is
new or a strict increase, appending relaxed neighbours to the queue. -/
def relax_neighbors (current_level : ℕ) :
    List String → List (String × ℕ) → List String → List (String × ℕ) × List String
  | [], levels, queue => (levels, queue)
  | neighbor :: rest, levels, queue =>
    let proposed := current_level + 1
    match alGet levels neighbor with
    | none => relax_neighbors current_level rest
        (alSet levels neighbor proposed) (queue ++ [neighbor])
    | some v =>
      if proposed > v then
        relax_neighbors current_level rest
          (alSet levels neighbor proposed) (queue ++ [neighbor])
      else relax_neighbors current_level rest levels queue

/-- The `while queue:` loop of `_assign_layers`, with explicit fuel.
`none` means the fuel ran out before the queue drained; `some (.error _)`
models an uncaught exception; `some (.ok levels)` is normal completion. -/
def run_layers (outgoing : List (String × List String)) :
    ℕ → List (String × ℕ) → List String → Option (Except PyErr (List (String × ℕ)))
  | _, levels, [] => some (Except.ok levels)
  | 0, _, _ :: _ => none
  | fuel + 1, levels, current :: rest =>
    match alGet levels current with
    | none => some (Except.error (PyErr.keyError current))
    | some current_level =>
      let p := relax_neighbors current_level ((alGet outgoing current).getD []) levels rest
      run_layers outgoing fuel p.1 p.2

/-- Seeding loop of `_assign_layers`: every node whose identifier is not a
key of `incoming` gets level 0 and is enqueued. -/
def seed_queue (incoming : List (String × List String)) (nodes : List FigureNode) :
    List (String × ℕ) × List String :=
  nodes.foldl
    (fun p n =>
      if (alGet incoming n.identifier).isNone
      then (alSet p.1 n.identifier 0, p.2 ++ [n.identifier])
      else p)
    ([], [])

/-- `_assign_layers` of `layout_figure.py`.  When the seed queue is empty
the source evaluates `plan.nodes[0]`, which raises `IndexError` on an
empty plan; otherwise it falls back to the first node.  After the queue
drains, isolated nodes get `levels.setdefault(node.identifier, 0)`. -/
def assign_layers (plan : FigurePlan) (fuel : ℕ) :
    Option (Except PyErr (List (String × ℕ))) :=
  let incoming := build_incoming plan.edges
  let outgoing := build_outgoing plan.edges
  let seeded := seed_queue incoming plan.nodes
  let run :=
    if seeded.2.isEmpty then
      match plan.nodes with
      | [] => some (Except.error PyErr.indexError)
      | n :: _ => run_layers outgoing fuel (alSet seeded.1 n.identifier 0) (seeded.2 ++ [n.identifier])
    else run_layers outgoing fuel seeded.1 seeded.2
  match run with
  | some (Except.ok levels) =>
      some (Except.ok (plan.nodes.foldl (fun lv n => alSetdefault lv n.identifier 0) levels))
  | other => other

/-- Grouping loop of `compute_layout`:
`for node_id, level in levels.items(): columns[level].append(node_id)`. -/
def build_columns (levels : List (String × ℕ)) : List (ℕ × List String) :=
  levels.foldl (fun cols p => alPush cols p.2 p.1) []

/-- Inner `for row_index, node_id in enumerate(column)` loop of
`compute_layout`: look each identifier up in `node_lookup` (raising
`KeyError` when absent) and emit a `PositionedNode` at
`(x, y_offset + row_index * NODE_SPACING[1])`. -/
def place_rows (lookup : List (String × FigureNode)) (x y_offset : ℚ) :
    List String → ℕ → Except PyErr (List PositionedNode)
  | [], _ => Except.ok []
  | id :: rest, i =>
    match alGet lookup id with
    | none => Except.error (PyErr.keyError id)
    | some n =>
      match place_rows lookup x y_offset rest (i + 1) with
      | Except.error e => Except.error e
      | Except.ok tail =>
          Except.ok (⟨n.identifier, n.label, n.node_type, n.metadata, x,
            y_offset + (i : ℚ) * NODE_SPACING.2⟩ :: tail)

/-- Outer `for level_index, level in enumerate(sorted_levels)` loop of
`compute_layout`: sort the column's identifiers, compute
`x = MARGIN + level_index * NODE_SPACING[0]`,
`col_height = NODE_SPACING[1] * max(1, len(column) - 1)` and
`y_offset = max(MARGIN, (height - col_height) / 2)`, then place the rows. -/
def place_levels (lookup : List (String × FigureNode)) (height : ℚ)
    (columns : List (ℕ × List String)) :
    List ℕ → ℕ → Except PyErr (List PositionedNode)
  | [], _ => Except.ok []
  | lv :: rest, level_index =>
    let column := List.insertionSort (fun a b : String => a ≤ b) ((alGet columns lv).getD [])
    let x : ℚ := MARGIN + (level_index : ℚ) * NODE_SPACING.1
    let col_height : ℚ := NODE_SPACING.2 * ((max 1 (column.length - 1) : ℕ) : ℚ)
    let y_offset : ℚ := max MARGIN ((height - col_height) / 2)
    match place_rows lookup x y_offset column 0 with
    | Except.error e => Except.error e
    | Except.ok here =>
      match place_levels lookup height columns rest (level_index + 1) with
      | Except.error e => Except.error e
      | Except.ok tail => Except.ok (here ++ tail)

/-- `compute_layout` of `layout_figure.py`.  `canvas_size` is the
keyword-only argument (`None` selects `DEFAULT_CANVAS_SIZE`); `fuel`
bounds the `while` loop of `_assign_layers` (`none` = the call has not
returned within that bound). -/
def compute_layout (plan : FigurePlan) (canvas_size : Option (ℚ × ℚ)) (fuel : ℕ) :
    Option (Except PyErr LayoutResult) :=
  let wh := canvas_size.getD DEFAULT_CANVAS_SIZE
  match assign_layers plan fuel with
  | none => none
  | some (Except.error e) => some (Except.error e)
  | some (Except.ok levels) =>
    let columns := build_columns levels
    let sorted_levels := List.insertionSort (fun a b : ℕ => a ≤ b) (columns.map (·.1))
    match place_levels (node_map plan) wh.2 columns sorted_levels 0 with
    | Except.error e => some (Except.error e)
    | Except.ok ns => some (Except.ok ⟨wh.1, wh.2, ns, plan.edges⟩)

/-! ### Concrete plans used by the claims -/

/-- Node `a`. -/
def nodeA : FigureNode := ⟨"a", "A", "process", []⟩

/-- Node `b`. -/
def nodeB : FigureNode := ⟨"b", "B", "process", []⟩

/-- Node `c`. -/
def nodeC : FigureNode := ⟨"c", "C", "process", []⟩

/-- The empty plan: no nodes, no edges. -/
def emptyPlan : FigurePlan := ⟨[], [], none, none⟩

/-- A plan with a single node and no edges. -/
def singlePlan : FigurePlan := ⟨[nodeA], [], none, none⟩

/-- The 2-cycle of §8 Scenario D: nodes a, b with edges a→b and b→a. -/
def twoCyclePlan : FigurePlan := ⟨[nodeA, nodeB], [⟨"a", "b", none⟩, ⟨"b", "a", none⟩], none, none⟩

/-- A plan whose only edge targets the identifier `x`, absent from the node
set (§8 Scenario E, dangling target). -/
def danglingTargetPlan : FigurePlan := ⟨[nodeA], [⟨"a", "x", none⟩], none, none⟩

/-- A plan whose only edge has the absent source identifier `ghost`
(§8 Scenario E, dangling source). -/
def danglingSourcePlan : FigurePlan := ⟨[nodeA], [⟨"ghost", "a", none⟩], none, none⟩

/-- The linear chain of §8 Scenario A: a→b→c. -/
def chainPlan : FigurePlan := ⟨[nodeA, nodeB, nodeC], [⟨"a", "b", none⟩, ⟨"b", "c", none⟩], none, none⟩

/-- The fan-out of §8 Scenario B: a→b, a→c. -/
def fanPlan : FigurePlan := ⟨[nodeA, nodeB, nodeC], [⟨"a", "b", none⟩, ⟨"a", "c", none⟩], none, none⟩

/-! ### C1: behaviour of the layering loop on the 2-cycle -/

/-- The outgoing adjacency of the 2-cycle plan. -/
def twoCycleOut : List (String × List String) := [("a", ["b"]), ("b", ["a"])]

/-- Reachable loop states of `_assign_layers` on the 2-cycle, after the
first step: the two node levels leapfrog each other forever. -/
def twoCycleInv (levels : List (String × ℕ)) (queue : List String) : Prop :=
  (∃ k, levels = [("a", k), ("b", k + 1)] ∧ queue = ["b"]) ∨
  (∃ k, levels = [("a", k + 2), ("b", k + 1)] ∧ queue = ["a"])

/-- Processing `b` at level `k+1` relaxes `a` to `k+2` and re-enqueues it. -/
theorem twoCycle_step1 (k fuel : ℕ) :
    run_layers twoCycleOut (fuel + 1) [("a", k), ("b", k + 1)] ["b"] =
    run_layers twoCycleOut fuel [("a", k + 2), ("b", k + 1)] ["a"] := by
  have hk : k + 1 + 1 > k := by omega
  simp only [run_layers, alGet, twoCycleOut, relax_neighbors, alSet,
    show ((("a" : String) = "b")) = False by decide,
    show ((("b" : String) = "b")) = True by decide,
    show ((("a" : String) = "a")) = True by decide,
    show ((("b" : String) = "a")) = False by decide,
    if_true, if_false, Option.getD, if_pos hk, List.nil_append]

/-- Processing `a` at level `k+2` relaxes `b` to `k+3` and re-enqueues it. -/
theorem twoCycle_step2 (k fuel : ℕ) :
    run_layers twoCycleOut (fuel + 1) [("a", k + 2), ("b", k + 1)] ["a"] =
    run_layers twoCycleOut fuel [("a", k + 2), ("b", k + 3)] ["b"] := by
  have hk : k + 2 + 1 > k + 1 := by omega
  simp only [run_layers, alGet, twoCycleOut, relax_neighbors, alSet,
    show ((("a" : String) = "b")) = False by decide,
    show ((("b" : String) = "b")) = True by decide,
    show ((("a" : String) = "a")) = True by decide,
    show ((("b" : String) = "a")) = False by decide,
    if_true, if_false, Option.getD, if_pos hk, List.nil_append]

/-- From any state of the leapfrog invariant, the queue never drains:
no amount of fuel finishes the loop. -/
theorem twoCycle_inv_run_none : ∀ (fuel : ℕ) (levels : List (String × ℕ)) (queue : List String),
    twoCycleInv levels queue → run_layers twoCycleOut fuel levels queue = none := by
  intro fuel
  induction fuel with
  | zero =>
    intro levels queue h
    rcases h with ⟨k, hl, hq⟩ | ⟨k, hl, hq⟩ <;> subst hl <;> subst hq <;> rfl
  | succ n ih =>
    intro levels queue h
    rcases h with ⟨k, hl, hq⟩ | ⟨k, hl, hq⟩ <;> subst hl <;> subst hq
    · rw [twoCycle_step1]
      exact ih _ _ (Or.inr ⟨k, rfl, rfl⟩)
    · rw [twoCycle_step2]
      exact ih _ _ (Or.inl ⟨k + 2, rfl, rfl⟩)

/-- The first loop iteration from the fallback seed `a` reaches the
leapfrog invariant. -/
theorem twoCycle_init_step (fuel : ℕ) :
    run_layers twoCycleOut (fuel + 1) [("a", 0)] ["a"] =
    run_layers twoCycleOut fuel [("a", 0), ("b", 1)] ["b"] := by
  simp only [run_layers, alGet, twoCycleOut, relax_neighbors, alSet,
    show ((("a" : String) = "b")) = False by decide,
    show ((("b" : String) = "b")) = True by decide,
    show ((("a" : String) = "a")) = True by decide,
    show ((("b" : String) = "a")) = False by decide,
    if_true, if_false, Option.getD, List.nil_append, Nat.zero_add]

/-- The layering loop started on the 2-cycle never terminates. -/
theorem twoCycle_run_from_init : ∀ (fuel : ℕ),
    run_layers twoCycleOut fuel [("a", 0)] ["a"] = none := by
  intro fuel
  match fuel with
  | 0 => rfl
  | n + 1 =>
    rw [twoCycle_init_step]
    exact twoCycle_inv_run_none n _ _ (Or.inl ⟨0, rfl, rfl⟩)

/-- `_assign_layers` on the 2-cycle plan runs forever. -/
theorem twoCycle_assign_none (fuel : ℕ) : assign_layers twoCyclePlan fuel = none := by
  have h : assign_layers twoCyclePlan fuel =
      match run_layers twoCycleOut fuel [("a", 0)] ["a"] with
      | some (Except.ok levels) =>
          some (Except.ok (twoCyclePlan.nodes.foldl (fun lv n => alSetdefault lv n.identifier 0) levels))
      | other => other := rfl
  rw [h, twoCycle_run_from_init]

/-- C1: the claim says `compute_layout` terminates on every cyclic plan,
including the 2-cycle a→b, b→a; in fact the strict-increase relaxation
leapfrogs the two levels forever, so the call never returns no matter how
much fuel the `while queue:` loop is given.  The code contradicts the
spec's explicit Scenario D and its own cycle-fallback comment: a code bug. -/
theorem claim_C1_two_cycle_never_terminates (fuel : ℕ) (cs : Option (ℚ × ℚ)) :
    compute_layout twoCyclePlan cs fuel = none := by
  unfold compute_layout
  rw [twoCycle_assign_none]

/-- C2: the claim says the empty plan yields an empty layout and no error;
in fact the cyclic-fallback line `plan.nodes[0]` raises `IndexError` on an
empty node list, for every canvas size and every fuel: a code bug. -/
theorem claim_C2_empty_plan_index_error : ∀ (fuel : ℕ) (cs : Option (ℚ × ℚ)),
    compute_layout emptyPlan cs fuel = some (Except.error PyErr.indexError) :=
  fun _ _ => rfl

deriving instance DecidableEq for Except

/-! ### C3: dangling edge endpoints -/

/-- Is the result the descriptive rejection the spec asks for, i.e. a
raised `LayoutError`?  (`layout_figure.py` declares the class but no code
path raises it.) -/
def is_explicit_rejection : Option (Except PyErr LayoutResult) → Bool
  | some (Except.error (PyErr.layoutError _)) => true
  | _ => false

/-- C3 counterexample: on the plan whose edge a→x names the absent node
`x`, `compute_layout` does not reject the input with a descriptive
condition; it crashes with a bare `KeyError` from the `node_lookup[...]`
dict access deep inside placement. -/
theorem claim_C3_counterexample :
    compute_layout danglingTargetPlan none 2 = some (Except.error (PyErr.keyError ("x"))) ∧
    is_explicit_rejection (compute_layout danglingTargetPlan none 2) = false := by
  have h : compute_layout danglingTargetPlan none (0 + 1 + 1) =
      some (Except.error (PyErr.keyError ("x"))) := by
    norm_num +decide [compute_layout, assign_layers, seed_queue, run_layers, relax_neighbors,
      build_incoming, build_outgoing, build_columns, node_map, place_levels, place_rows,
      alGet, alSet, alSetdefault, alPush, MARGIN, NODE_SPACING, DEFAULT_CANVAS_SIZE,
      danglingTargetPlan, nodeA, List.insertionSort, List.orderedInsert]
  exact ⟨h, by rw [show (2 : ℕ) = 0 + 1 + 1 from rfl, h]; rfl⟩

/-- C3 amended: `compute_layout` performs no endpoint validation at all.
A dangling identifier that the relaxation reaches (the absent target `x`
of a→x) surfaces as an unrelated `KeyError` naming it during placement,
while a dangling source that is never enqueued (the absent source `ghost`
of ghost→a) is silently ignored: layout succeeds and the edge is passed
through unchanged. -/
theorem claim_C3_amended :
    compute_layout danglingTargetPlan none 2 = some (Except.error (PyErr.keyError ("x"))) ∧
    compute_layout danglingSourcePlan none 1 =
      some (Except.ok ⟨800, 600, [⟨"a", "A", "process", [], 60, 230⟩], [⟨"ghost", "a", none⟩]⟩) := by
  constructor
  · show compute_layout danglingTargetPlan none (0 + 1 + 1) = _
    norm_num +decide [compute_layout, assign_layers, seed_queue, run_layers, relax_neighbors,
      build_incoming, build_outgoing, build_columns, node_map, place_levels, place_rows,
      alGet, alSet, alSetdefault, alPush, MARGIN, NODE_SPACING, DEFAULT_CANVAS_SIZE,
      danglingTargetPlan, nodeA, List.insertionSort, List.orderedInsert]
  · show compute_layout danglingSourcePlan none (0 + 1) = _
    norm_num +decide [compute_layout, assign_layers, seed_queue, run_layers, relax_neighbors,
      build_incoming, build_outgoing, build_columns, node_map, place_levels, place_rows,
      alGet, alSet, alSetdefault, alPush, MARGIN, NODE_SPACING, DEFAULT_CANVAS_SIZE,
      danglingSourcePlan, nodeA, List.insertionSort, List.orderedInsert, max_def]

/-! ### C4: vertical centering of a single-node layer -/

/-- C4 counterexample: for the single-node plan on the default 800×600
canvas the claim demands y = 600/2 = 300 (and 300 ≥ margin holds), but the
code computes `col_height = 140 * max(1, 0) = 140` and places the node at
y = max(60, (600-140)/2) = 230 ≠ 300. -/
theorem claim_C4_counterexample :
    compute_layout singlePlan none 1 =
      some (Except.ok ⟨800, 600, [⟨"a", "A", "process", [], 60, 230⟩], []⟩) ∧
    (600 : ℚ) / 2 ≥ MARGIN ∧ (230 : ℚ) ≠ (600 : ℚ) / 2 := by
  refine ⟨?_, by norm_num [MARGIN], by norm_num⟩
  show compute_layout singlePlan none (0 + 1) = _
  norm_num +decide [compute_layout, assign_layers, seed_queue, run_layers, relax_neighbors,
    build_incoming, build_outgoing, build_columns, node_map, place_levels, place_rows,
    alGet, alSet, alSetdefault, alPush, MARGIN, NODE_SPACING, DEFAULT_CANVAS_SIZE,
    singlePlan, nodeA, List.insertionSort, List.orderedInsert, max_def]

/-! ### C9: determinism / purity -/

/-- C9: the embedding of `compute_layout` is a pure function of the plan
and canvas size (the source reads only its arguments and the module-level
constants, and holds no mutable state across calls), so equal inputs give
bit-identical layout results. -/
theorem claim_C9_deterministic (p1 p2 : FigurePlan) (cs1 cs2 : Option (ℚ × ℚ)) (fuel : ℕ)
    (hp : p1 = p2) (hcs : cs1 = cs2) :
    compute_layout p1 cs1 fuel = compute_layout p2 cs2 fuel := by
  subst hp
  subst hcs
  rfl

/-- Witness for C9 at a concrete input. -/
theorem claim_C9_deterministic_witness :
    singlePlan = singlePlan ∧
    compute_layout singlePlan none 1 = compute_layout singlePlan none 1 :=
  ⟨rfl, claim_C9_deterministic singlePlan singlePlan none none 1 rfl rfl⟩

/-! ### Association-list lemmas -/

/-- Keys of an association list, in order. -/
def alKeys {κ β : Type} (m : List (κ × β)) : List κ := m.map (·.1)

theorem alGet_isSome_iff_mem {κ β : Type} [DecidableEq κ] (m : List (κ × β)) (k : κ) :
    (alGet m k).isSome ↔ k ∈ alKeys m := by
  induction m with
  | nil => simp [alGet, alKeys]
  | cons p rest ih =>
    by_cases h : p.1 = k
    · simp [alGet, alKeys, h]
    · simp [alGet, alKeys, h, ih, alKeys, Ne.symm h]

theorem alGet_alSet_self {κ β : Type} [DecidableEq κ] (m : List (κ × β)) (k : κ) (v : β) :
    alGet (alSet m k v) k = some v := by
  induction m with
  | nil => simp [alSet, alGet]
  | cons p rest ih =>
    by_cases h : p.1 = k
    · simp [alSet, alGet, h]
    · simp [alSet, alGet, h, ih]

theorem alGet_alSet_ne {κ β : Type} [DecidableEq κ] (m : List (κ × β)) {k k' : κ}
    (h : k' ≠ k) (v : β) : alGet (alSet m k v) k' = alGet m k' := by
  induction m with
  | nil => simp [alSet, alGet, Ne.symm h]
  | cons p rest ih =>
    by_cases hp : p.1 = k
    · subst hp
      simp [alSet, alGet, Ne.symm h]
    · simp only [alSet, if_neg hp, alGet]
      by_cases hp' : p.1 = k'
      · simp [hp']
      · simp [hp', ih]

theorem alKeys_alSet {κ β : Type} [DecidableEq κ] (m : List (κ × β)) (k : κ) (v : β) :
    alKeys (alSet m k v) = if k ∈ alKeys m then alKeys m else alKeys m ++ [k] := by
  induction m with
  | nil => simp [alSet, alKeys]
  | cons p rest ih =>
    by_cases h : p.1 = k
    · simp [alSet, alKeys, h]
    · simp only [alSet, if_neg h, alKeys, List.map_cons] at ih ⊢
      rw [ih]
      by_cases hm : k ∈ List.map (fun p => p.1) rest
      · simp [hm, Ne.symm h]
      · simp [hm, Ne.symm h]

theorem nodup_alKeys_alSet {κ β : Type} [DecidableEq κ] (m : List (κ × β)) (k : κ) (v : β)
    (h : (alKeys m).Nodup) : (alKeys (alSet m k v)).Nodup := by
  rw [alKeys_alSet]
  by_cases hm : k ∈ alKeys m
  · simp [hm, h]
  · simp [hm, List.nodup_append, h]

theorem alGet_alSetdefault_self {κ β : Type} [DecidableEq κ] (m : List (κ × β)) (k : κ) (v : β) :
    alGet (alSetdefault m k v) k = some ((alGet m k).getD v) := by
  induction m with
  | nil => simp [alSetdefault, alGet]
  | cons p rest ih =>
    by_cases h : p.1 = k
    · simp [alSetdefault, alGet, h]
    · simp [alSetdefault, alGet, h, ih]

theorem alGet_alSetdefault_ne {κ β : Type} [DecidableEq κ] (m : List (κ × β)) {k k' : κ}
    (h : k' ≠ k) (v : β) : alGet (alSetdefault m k v) k' = alGet m k' := by
  induction m with
  | nil => simp [alSetdefault, alGet, Ne.symm h]
  | cons p rest ih =>
    by_cases hp : p.1 = k
    · simp [alSetdefault, hp]
    · simp only [alSetdefault, if_neg hp, alGet]
      by_cases hp' : p.1 = k'
      · simp [hp']
      · simp [hp', ih]

theorem alSetdefault_of_isSome {κ β : Type} [DecidableEq κ] (m : List (κ × β)) (k : κ) (v : β)
    (h : (alGet m k).isSome) : alSetdefault m k v = m := by
  induction m with
  | nil => simp [alGet] at h
  | cons p rest ih =>
    by_cases hp : p.1 = k
    · simp [alSetdefault, hp]
    · simp only [alGet, if_neg hp] at h
      simp [alSetdefault, hp, ih h]

theorem alKeys_alSetdefault {κ β : Type} [DecidableEq κ] (m : List (κ × β)) (k : κ) (v : β) :
    alKeys (alSetdefault m k v) = if k ∈ alKeys m then alKeys m else alKeys m ++ [k] := by
  induction m with
  | nil => simp [alSetdefault, alKeys]
  | cons p rest ih =>
    by_cases h : p.1 = k
    · simp [alSetdefault, alKeys, h]
    · simp only [alSetdefault, if_neg h, alKeys, List.map_cons] at ih ⊢
      rw [ih]
      by_cases hm : k ∈ List.map (fun p => p.1) rest
      · simp [hm, Ne.symm h]
      · simp [hm, Ne.symm h]

theorem nodup_alKeys_alSetdefault {κ β : Type} [DecidableEq κ] (m : List (κ × β)) (k : κ) (v : β)
    (h : (alKeys m).Nodup) : (alKeys (alSetdefault m k v)).Nodup := by
  rw [alKeys_alSetdefault]
  by_cases hm : k ∈ alKeys m
  · simp [hm, h]
  · simp [hm, List.nodup_append, h]

theorem alGet_alPush_self {κ β : Type} [DecidableEq κ] (m : List (κ × List β)) (k : κ) (v : β) :
    alGet (alPush m k v) k = some ((alGet m k).getD [] ++ [v]) := by
  induction m with
  | nil => simp [alPush, alGet]
  | cons p rest ih =>
    by_cases h : p.1 = k
    · simp [alPush, alGet, h]
    · simp [alPush, alGet, h, ih]

theorem alGet_alPush_ne {κ β : Type} [DecidableEq κ] (m : List (κ × List β)) {k k' : κ}
    (h : k' ≠ k) (v : β) : alGet (alPush m k v) k' = alGet m k' := by
  induction m with
  | nil => simp [alPush, alGet, Ne.symm h]
  | cons p rest ih =>
    by_cases hp : p.1 = k
    · simp only [alPush, if_pos hp, alGet]
      subst hp
      simp [Ne.symm h]
    · simp only [alPush, if_neg hp, alGet]
      by_cases hp' : p.1 = k'
      · simp [hp']
      · simp [hp', ih]

theorem alKeys_alPush {κ β : Type} [DecidableEq κ] (m : List (κ × List β)) (k : κ) (v : β) :
    alKeys (alPush m k v) = if k ∈ alKeys m then alKeys m else alKeys m ++ [k] := by
  induction m with
  | nil => simp [alPush, alKeys]
  | cons p rest ih =>
    by_cases h : p.1 = k
    · simp [alPush, alKeys, h]
    · simp only [alPush, if_neg h, alKeys, List.map_cons] at ih ⊢
      rw [ih]
      by_cases hm : k ∈ List.map (fun p => p.1) rest
      · simp [hm, Ne.symm h]
      · simp [hm, Ne.symm h]

theorem nodup_alKeys_alPush {κ β : Type} [DecidableEq κ] (m : List (κ × List β)) (k : κ) (v : β)
    (h : (alKeys m).Nodup) : (alKeys (alPush m k v)).Nodup := by
  rw [alKeys_alPush]
  by_cases hm : k ∈ alKeys m
  · simp [hm, h]
  · simp [hm, List.nodup_append, h]

theorem alGet_eq_some_mem {κ β : Type} [DecidableEq κ] {m : List (κ × β)} {k : κ} {v : β}
    (h : alGet m k = some v) : (k, v) ∈ m := by
  induction m with
  | nil => simp [alGet] at h
  | cons p rest ih =>
    by_cases hp : p.1 = k
    · simp only [alGet, if_pos hp, Option.some.injEq] at h
      refine List.mem_cons.mpr (Or.inl ?_)
      rw [← hp, ← h]
    · simp only [alGet, if_neg hp] at h
      exact List.mem_cons_of_mem _ (ih h)

theorem alGet_of_mem_nodup {κ β : Type} [DecidableEq κ] {m : List (κ × β)} {k : κ} {v : β}
    (hn : (alKeys m).Nodup) (h : (k, v) ∈ m) : alGet m k = some v := by
  induction m with
  | nil => simp at h
  | cons p rest ih =>
    simp only [alKeys, List.map_cons, List.nodup_cons] at hn
    rcases List.mem_cons.mp h with h1 | h1
    · subst h1
      simp [alGet]
    · have hk : p.1 ≠ k := by
        intro hpk
        exact hn.1 (hpk ▸ (List.mem_map.mpr ⟨(k, v), h1, rfl⟩))
      simp only [alGet, if_neg hk]
      exact ih hn.2 h1

/-! ### Adjacency and column structure -/

theorem mem_build_outgoing_fold (E : List FigureEdge) :
    ∀ (m0 : List (String × List String)) (s t : String),
    (t ∈ (alGet (E.foldl (fun m e => alPush m e.source e.target) m0) s).getD [] ↔
      t ∈ (alGet m0 s).getD [] ∨ ∃ e ∈ E, e.source = s ∧ e.target = t) := by
  induction E with
  | nil => simp
  | cons e E ih =>
    intro m0 s t
    rw [List.foldl_cons, ih]
    by_cases hs : e.source = s
    · subst hs
      rw [alGet_alPush_self]
      simp only [Option.getD_some, List.mem_append, List.mem_singleton, List.mem_cons]
      aesop
    · rw [alGet_alPush_ne _ (fun hh => hs hh.symm)]
      simp only [List.mem_cons]
      aesop

theorem mem_build_outgoing (E : List FigureEdge) (s t : String) :
    t ∈ (alGet (build_outgoing E) s).getD [] ↔ ∃ e ∈ E, e.source = s ∧ e.target = t := by
  rw [build_outgoing, mem_build_outgoing_fold]
  simp [alGet]

theorem isSome_build_incoming_fold (E : List FigureEdge) :
    ∀ (m0 : List (String × List String)) (n : String),
    ((alGet (E.foldl (fun m e => alPush m e.target e.source) m0) n).isSome ↔
      (alGet m0 n).isSome ∨ ∃ e ∈ E, e.target = n) := by
  induction E with
  | nil => simp
  | cons e E ih =>
    intro m0 n
    rw [List.foldl_cons, ih]
    by_cases hn : e.target = n
    · subst hn
      rw [alGet_alPush_self]
      simp only [Option.isSome_some, true_iff, List.mem_cons]
      aesop
    · rw [alGet_alPush_ne _ (fun hh => hn hh.symm)]
      simp only [List.mem_cons]
      aesop

theorem isSome_build_incoming (E : List FigureEdge) (n : String) :
    (alGet (build_incoming E) n).isSome ↔ ∃ e ∈ E, e.target = n := by
  rw [build_incoming, isSome_build_incoming_fold]
  simp [alGet]

theorem mem_build_columns_fold (levels : List (String × ℕ)) :
    ∀ (m0 : List (ℕ × List String)) (lv : ℕ) (id : String),
    (id ∈ (alGet (levels.foldl (fun cols p => alPush cols p.2 p.1) m0) lv).getD [] ↔
      id ∈ (alGet m0 lv).getD [] ∨ (id, lv) ∈ levels) := by
  induction levels with
  | nil => simp
  | cons q levels ih =>
    intro m0 lv id
    rw [List.foldl_cons, ih]
    by_cases hl : q.2 = lv
    · rw [← hl, alGet_alPush_self]
      simp only [Option.getD_some, List.mem_append, List.mem_singleton, List.mem_cons,
        Prod.ext_iff]
      aesop
    · rw [alGet_alPush_ne _ (fun hh => hl hh.symm)]
      simp only [List.mem_cons, Prod.ext_iff]
      aesop

theorem mem_build_columns (levels : List (String × ℕ)) (lv : ℕ) (id : String) :
    id ∈ (alGet (build_columns levels) lv).getD [] ↔ (id, lv) ∈ levels := by
  rw [build_columns, mem_build_columns_fold]
  simp [alGet]

theorem mem_alKeys_build_columns_fold (levels : List (String × ℕ)) :
    ∀ (m0 : List (ℕ × List String)) (lv : ℕ),
    (lv ∈ alKeys (levels.foldl (fun cols p => alPush cols p.2 p.1) m0) ↔
      lv ∈ alKeys m0 ∨ ∃ id, (id, lv) ∈ levels) := by
  induction levels with
  | nil => simp
  | cons q levels ih =>
    intro m0 lv
    rw [List.foldl_cons, ih, alKeys_alPush]
    by_cases hl : q.2 = lv
    · subst hl
      by_cases hm : q.2 ∈ alKeys m0
      · simp only [if_pos hm, List.mem_cons, Prod.ext_iff]
        aesop
      · simp only [if_neg hm, List.mem_append, List.mem_singleton, List.mem_cons, Prod.ext_iff]
        aesop
    · by_cases hm : q.2 ∈ alKeys m0
      · simp only [if_pos hm, List.mem_cons, Prod.ext_iff]
        aesop
      · simp only [if_neg hm, List.mem_append, List.mem_singleton, List.mem_cons, Prod.ext_iff]
        aesop

theorem mem_alKeys_build_columns (levels : List (String × ℕ)) (lv : ℕ) :
    lv ∈ alKeys (build_columns levels) ↔ ∃ id, (id, lv) ∈ levels := by
  rw [build_columns, mem_alKeys_build_columns_fold]
  simp [alKeys]

theorem nodup_alKeys_build_columns_fold (levels : List (String × ℕ)) :
    ∀ (m0 : List (ℕ × List String)), (alKeys m0).Nodup →
    (alKeys (levels.foldl (fun cols p => alPush cols p.2 p.1) m0)).Nodup := by
  induction levels with
  | nil => exact fun m0 h => h
  | cons q levels ih =>
    intro m0 h
    rw [List.foldl_cons]
    exact ih _ (nodup_alKeys_alPush _ _ _ h)

theorem nodup_alKeys_build_columns (levels : List (String × ℕ)) :
    (alKeys (build_columns levels)).Nodup :=
  nodup_alKeys_build_columns_fold levels [] List.nodup_nil

theorem alPush_flatten_perm {κ : Type} [DecidableEq κ] (m : List (κ × List String)) (k : κ) (v : String) :
    List.Perm ((alPush m k v).map (·.2)).flatten (((m.map (·.2)).flatten) ++ [v]) := by
  induction m with
  | nil => simp [alPush]
  | cons p rest ih =>
    by_cases h : p.1 = k
    · simp only [alPush, if_pos h, List.map_cons, List.flatten_cons]
      rw [List.append_assoc, List.append_assoc]
      exact List.Perm.append_left p.2 (List.perm_append_comm)
    · simp only [alPush, if_neg h, List.map_cons, List.flatten_cons]
      rw [List.append_assoc]
      exact List.Perm.append_left p.2 ih

theorem build_columns_flatten_perm_fold (levels : List (String × ℕ)) :
    ∀ (m0 : List (ℕ × List String)),
    List.Perm ((levels.foldl (fun cols p => alPush cols p.2 p.1) m0).map (·.2)).flatten
      ((m0.map (·.2)).flatten ++ levels.map (·.1)) := by
  induction levels with
  | nil => simp
  | cons q levels ih =>
    intro m0
    rw [List.foldl_cons]
    refine (ih _).trans ?_
    rw [List.map_cons]
    refine List.Perm.trans (List.Perm.append_right _ (alPush_flatten_perm m0 q.2 q.1)) ?_
    rw [List.append_assoc]
    exact List.Perm.append_left _ (by simp)

theorem build_columns_flatten_perm (levels : List (String × ℕ)) :
    List.Perm ((build_columns levels).map (·.2)).flatten (levels.map (·.1)) := by
  have h := build_columns_flatten_perm_fold levels []
  simpa using h

theorem build_columns_values_nonempty_fold (levels : List (String × ℕ)) :
    ∀ (m0 : List (ℕ × List String)), (∀ p ∈ m0, p.2 ≠ []) →
    ∀ p ∈ (levels.foldl (fun cols p => alPush cols p.2 p.1) m0), p.2 ≠ [] := by
  induction levels with
  | nil => exact fun m0 h => h
  | cons q levels ih =>
    intro m0 h
    rw [List.foldl_cons]
    refine ih _ ?_
    intro p hp
    induction m0 with
    | nil =>
      simp only [alPush, List.mem_singleton] at hp
      simp [hp]
    | cons r m0 ih2 =>
      by_cases hr : r.1 = q.2
      · simp only [alPush, if_pos hr, List.mem_cons] at hp
        rcases hp with rfl | hp
        · simp
        · exact h _ (List.mem_cons_of_mem _ hp)
      · simp only [alPush, if_neg hr, List.mem_cons] at hp
        rcases hp with rfl | hp
        · exact h _ (List.mem_cons_self _ _)
        · exact ih2 (fun p2 hp2 => h _ (List.mem_cons_of_mem _ hp2)) hp

theorem build_columns_values_nonempty (levels : List (String × ℕ)) :
    ∀ p ∈ build_columns levels, p.2 ≠ [] :=
  build_columns_values_nonempty_fold levels [] (by simp)

/-! ### Node lookup structure -/

theorem alGet_node_fold_cases (nodes : List FigureNode) :
    ∀ (m0 : List (String × FigureNode)) (id : String) (n : FigureNode),
    alGet (nodes.foldl (fun m nd => alSet m nd.identifier nd) m0) id = some n →
    (n.identifier = id ∧ n ∈ nodes) ∨ alGet m0 id = some n := by
  induction nodes with
  | nil => exact fun m0 id n h => Or.inr h
  | cons nd nodes ih =>
    intro m0 id n h
    rw [List.foldl_cons] at h
    rcases ih _ _ _ h with ⟨h1, h2⟩ | h1
    · exact Or.inl ⟨h1, List.mem_cons_of_mem _ h2⟩
    · by_cases hd : nd.identifier = id
      · rw [← hd, alGet_alSet_self] at h1
        cases h1
        exact Or.inl ⟨hd, List.mem_cons_self _ _⟩
      · rw [alGet_alSet_ne _ (fun hh => hd hh.symm)] at h1
        exact Or.inr h1

theorem alGet_node_map_cases (plan : FigurePlan) (id : String) (n : FigureNode)
    (h : alGet (node_map plan) id = some n) : n.identifier = id ∧ n ∈ plan.nodes := by
  rcases alGet_node_fold_cases plan.nodes [] id n h with h1 | h1
  · exact h1
  · simp [alGet] at h1

theorem isSome_node_fold (nodes : List FigureNode) :
    ∀ (m0 : List (String × FigureNode)) (id : String),
    ((alGet (nodes.foldl (fun m nd => alSet m nd.identifier nd) m0) id).isSome ↔
      (alGet m0 id).isSome ∨ ∃ n ∈ nodes, n.identifier = id) := by
  induction nodes with
  | nil => simp
  | cons nd nodes ih =>
    intro m0 id
    rw [List.foldl_cons, ih]
    by_cases hd : nd.identifier = id
    · rw [← hd, alGet_alSet_self]
      simp only [Option.isSome_some, true_or, true_iff, List.mem_cons]
      exact Or.inr ⟨nd, Or.inl rfl, rfl⟩
    · rw [alGet_alSet_ne _ (fun hh => hd hh.symm)]
      simp only [List.mem_cons]
      aesop

theorem isSome_node_map (plan : FigurePlan) (id : String) :
    (alGet (node_map plan) id).isSome ↔ ∃ n ∈ plan.nodes, n.identifier = id := by
  rw [node_map, isSome_node_fold]
  simp [alGet]

theorem alGet_node_fold_not_mem (nodes : List FigureNode) :
    ∀ (m0 : List (String × FigureNode)) (id : String),
    id ∉ nodes.map (·.identifier) →
    alGet (nodes.foldl (fun m nd => alSet m nd.identifier nd) m0) id = alGet m0 id := by
  induction nodes with
  | nil => exact fun m0 id h => rfl
  | cons nd nodes ih =>
    intro m0 id h
    simp only [List.map_cons, List.mem_cons, not_or] at h
    rw [List.foldl_cons, ih _ _ h.2, alGet_alSet_ne _ (fun hh => h.1 hh)]

theorem alGet_node_fold_of_mem (nodes : List FigureNode)
    (hn : (nodes.map (·.identifier)).Nodup) :
    ∀ (m0 : List (String × FigureNode)) (n : FigureNode), n ∈ nodes →
    alGet (nodes.foldl (fun m nd => alSet m nd.identifier nd) m0) n.identifier = some n := by
  induction nodes with
  | nil =>
    intro m0 n hmem
    exact absurd hmem (List.not_mem_nil n)
  | cons nd nodes ih =>
    simp only [List.map_cons, List.nodup_cons] at hn
    intro m0 n hmem
    rcases List.mem_cons.mp hmem with rfl | hmem
    · rw [List.foldl_cons, alGet_node_fold_not_mem _ _ _ hn.1, alGet_alSet_self]
    · rw [List.foldl_cons]
      exact ih hn.2 _ n hmem

theorem alGet_node_map_of_mem (plan : FigurePlan)
    (hn : (plan.nodes.map (·.identifier)).Nodup) :
    ∀ n ∈ plan.nodes, alGet (node_map plan) n.identifier = some n :=
  fun n hmem => alGet_node_fold_of_mem plan.nodes hn [] n hmem

/-! ### Placement structure -/

/-- A `FigureNode` placed at explicit coordinates (the record built by the
inner loop of `compute_layout`). -/
def position_node (n : FigureNode) (x y : ℚ) : PositionedNode :=
  ⟨n.identifier, n.label, n.node_type, n.metadata, x, y⟩

/-- Forget the coordinates of a placed node. -/
def forget_position (p : PositionedNode) : FigureNode :=
  ⟨p.identifier, p.label, p.node_type, p.metadata⟩

/-- The sorted identifier column that `compute_layout` builds for layer
`lv` (`column = columns[level]; column.sort()`). -/
def sorted_column (cols : List (ℕ × List String)) (lv : ℕ) : List String :=
  List.insertionSort (fun a b : String => a ≤ b) ((alGet cols lv).getD [])

/-- The x coordinate of column index `ci`. -/
def col_x (ci : ℕ) : ℚ := MARGIN + (ci : ℚ) * NODE_SPACING.1

/-- The vertical start of a column of `k` nodes. -/
def col_y_offset (height : ℚ) (k : ℕ) : ℚ :=
  max MARGIN ((height - NODE_SPACING.2 * ((max 1 (k - 1) : ℕ) : ℚ)) / 2)

theorem place_rows_ok (lookup : List (String × FigureNode)) (x y : ℚ) :
    ∀ (ids : List String) (i : ℕ),
    (∀ id ∈ ids, (alGet lookup id).isSome) →
    ∃ out, place_rows lookup x y ids i = Except.ok out ∧
      out.length = ids.length ∧
      ∀ j, j < ids.length →
        ∃ id n, ids[j]? = some id ∧ alGet lookup id = some n ∧
          out[j]? = some (position_node n x (y + ((i + j : ℕ) : ℚ) * NODE_SPACING.2)) := by
  intro ids
  induction ids with
  | nil =>
    intro i _
    exact ⟨[], rfl, rfl, fun j hj => absurd hj (by simp)⟩
  | cons id rest ih =>
    intro i hsome
    obtain ⟨n, hn⟩ := Option.isSome_iff_exists.mp (hsome id (List.mem_cons_self _ _))
    obtain ⟨out', hout', hlen', hptr'⟩ := ih (i + 1) (fun id2 h2 => hsome id2 (List.mem_cons_of_mem _ h2))
    refine ⟨position_node n x (y + (i : ℚ) * NODE_SPACING.2) :: out', ?_, by simp [hlen'], ?_⟩
    · simp only [place_rows, hn, hout']
      rfl
    · intro j hj
      match j with
      | 0 => exact ⟨id, n, by simp, hn, by simp [position_node]⟩
      | j + 1 =>
        obtain ⟨id2, n2, h1, h2, h3⟩ := hptr' j (by simpa using hj)
        refine ⟨id2, n2, by simpa using h1, h2, ?_⟩
        simp only [List.getElem?_cons_succ, h3, Option.some.injEq]
        congr 2
        push_cast
        ring

theorem place_levels_ok (lookup : List (String × FigureNode)) (height : ℚ)
    (cols : List (ℕ × List String)) :
    ∀ (lvs : List ℕ) (ci : ℕ),
    (∀ lv ∈ lvs, ∀ id ∈ sorted_column cols lv, (alGet lookup id).isSome) →
    ∃ (out : List PositionedNode) (blocks : List (List PositionedNode)),
      place_levels lookup height cols lvs ci = Except.ok out ∧
      out = blocks.flatten ∧ blocks.length = lvs.length ∧
      ∀ j, j < lvs.length →
        ∃ lv b, lvs[j]? = some lv ∧ blocks[j]? = some b ∧
          place_rows lookup (col_x (ci + j))
            (col_y_offset height (sorted_column cols lv).length) (sorted_column cols lv) 0 =
            Except.ok b := by
  intro lvs
  induction lvs with
  | nil =>
    intro ci _
    exact ⟨[], [], rfl, rfl, rfl, by simp⟩
  | cons lv rest ih =>
    intro ci hsome
    obtain ⟨b, hb, hblen, hbptr⟩ := place_rows_ok lookup (col_x ci)
      (col_y_offset height (sorted_column cols lv).length) (sorted_column cols lv) 0
      (hsome lv (List.mem_cons_self _ _))
    obtain ⟨out', blocks', hout', hflat, hlen, hptr⟩ :=
      ih (ci + 1) (fun lv2 h2 => hsome lv2 (List.mem_cons_of_mem _ h2))
    refine ⟨b ++ out', b :: blocks', ?_, by simp [hflat], by simp [hlen], ?_⟩
    · simp only [col_x, col_y_offset, sorted_column] at hb hout'
      simp only [place_levels, hb, hout']
    · intro j hj
      match j with
      | 0 =>
        refine ⟨lv, b, by simp, by simp, ?_⟩
        have hc : ci + 0 = ci := by omega
        rw [hc]
        exact hb
      | j + 1 =>
        obtain ⟨lv2, b2, h1, h2, h3⟩ := hptr j (by simpa using hj)
        refine ⟨lv2, b2, by simpa using h1, by simpa using h2, ?_⟩
        have hc : ci + (j + 1) = ci + 1 + j := by omega
        rw [hc]
        exact h3

/-! ### Invariants of the relaxation loop -/

theorem relax_cons_new {levels : List (String × ℕ)} {nb : String} (L : ℕ) (rest queue : List String)
    (h : alGet levels nb = none) :
    relax_neighbors L (nb :: rest) levels queue =
      relax_neighbors L rest (alSet levels nb (L + 1)) (queue ++ [nb]) := by
  simp only [relax_neighbors, h]

theorem relax_cons_lt {levels : List (String × ℕ)} {nb : String} {w : ℕ} (L : ℕ)
    (rest queue : List String) (h : alGet levels nb = some w) (hv : L + 1 > w) :
    relax_neighbors L (nb :: rest) levels queue =
      relax_neighbors L rest (alSet levels nb (L + 1)) (queue ++ [nb]) := by
  simp only [relax_neighbors, h, if_pos hv]

theorem relax_cons_ge {levels : List (String × ℕ)} {nb : String} {w : ℕ} (L : ℕ)
    (rest queue : List String) (h : alGet levels nb = some w) (hv : ¬ L + 1 > w) :
    relax_neighbors L (nb :: rest) levels queue = relax_neighbors L rest levels queue := by
  simp only [relax_neighbors, h, if_neg hv]

theorem relax_nodup (L : ℕ) : ∀ (ns : List String) (levels : List (String × ℕ)) (queue : List String),
    (alKeys levels).Nodup → (alKeys (relax_neighbors L ns levels queue).1).Nodup := by
  intro ns
  induction ns with
  | nil => exact fun levels queue h => h
  | cons nb rest ih =>
    intro levels queue h
    cases halt : alGet levels nb with
    | none =>
      rw [relax_cons_new L rest queue halt]
      exact ih _ _ (nodup_alKeys_alSet _ _ _ h)
    | some w =>
      by_cases hv : L + 1 > w
      · rw [relax_cons_lt L rest queue halt hv]
        exact ih _ _ (nodup_alKeys_alSet _ _ _ h)
      · rw [relax_cons_ge L rest queue halt hv]
        exact ih _ _ h

theorem relax_get_mono (L : ℕ) : ∀ (ns : List String) (levels : List (String × ℕ)) (queue : List String)
    (id : String) (v : ℕ), alGet levels id = some v →
    ∃ v', alGet (relax_neighbors L ns levels queue).1 id = some v' ∧ v ≤ v' := by
  intro ns
  induction ns with
  | nil => exact fun levels queue id v h => ⟨v, h, le_refl v⟩
  | cons nb rest ih =>
    intro levels queue id v h
    cases halt : alGet levels nb with
    | none =>
      rw [relax_cons_new L rest queue halt]
      by_cases hid : id = nb
      · subst hid
        rw [h] at halt
        cases halt
      · exact ih _ _ id v (by rw [alGet_alSet_ne _ hid]; exact h)
    | some w =>
      by_cases hv : L + 1 > w
      · rw [relax_cons_lt L rest queue halt hv]
        by_cases hid : id = nb
        · subst hid
          rw [h] at halt
          cases halt
          obtain ⟨v', h1, h2⟩ := ih (alSet levels id (L + 1)) (queue ++ [id]) id (L + 1)
            (alGet_alSet_self _ _ _)
          exact ⟨v', h1, by omega⟩
        · exact ih _ _ id v (by rw [alGet_alSet_ne _ hid]; exact h)
      · rw [relax_cons_ge L rest queue halt hv]
        exact ih _ _ id v h

theorem relax_get_none (L : ℕ) : ∀ (ns : List String) (levels : List (String × ℕ)) (queue : List String)
    (id : String), alGet (relax_neighbors L ns levels queue).1 id = none →
    alGet levels id = none ∧ id ∉ ns := by
  intro ns
  induction ns with
  | nil => exact fun levels queue id h => ⟨h, by simp⟩
  | cons nb rest ih =>
    intro levels queue id h
    cases halt : alGet levels nb with
    | none =>
      rw [relax_cons_new L rest queue halt] at h
      obtain ⟨h1, h2⟩ := ih _ _ id h
      by_cases hid : id = nb
      · subst hid
        rw [alGet_alSet_self] at h1
        cases h1
      · rw [alGet_alSet_ne _ hid] at h1
        exact ⟨h1, by simp [hid, h2]⟩
    | some w =>
      by_cases hv : L + 1 > w
      · rw [relax_cons_lt L rest queue halt hv] at h
        obtain ⟨h1, h2⟩ := ih _ _ id h
        by_cases hid : id = nb
        · subst hid
          rw [alGet_alSet_self] at h1
          cases h1
        · rw [alGet_alSet_ne _ hid] at h1
          exact ⟨h1, by simp [hid, h2]⟩
      · rw [relax_cons_ge L rest queue halt hv] at h
        obtain ⟨h1, h2⟩ := ih _ _ id h
        by_cases hid : id = nb
        · subst hid
          rw [halt] at h1
          cases h1
        · exact ⟨h1, by simp [hid, h2]⟩

theorem relax_get_cases (L : ℕ) : ∀ (ns : List String) (levels : List (String × ℕ)) (queue : List String)
    (id : String) (v' : ℕ), alGet (relax_neighbors L ns levels queue).1 id = some v' →
    alGet levels id = some v' ∨ (id ∈ ns ∧ v' = L + 1) := by
  intro ns
  induction ns with
  | nil => exact fun levels queue id v' h => Or.inl h
  | cons nb rest ih =>
    intro levels queue id v' h
    cases halt : alGet levels nb with
    | none =>
      rw [relax_cons_new L rest queue halt] at h
      rcases ih _ _ id v' h with h1 | h1
      · by_cases hid : id = nb
        · subst hid
          rw [alGet_alSet_self] at h1
          cases h1
          exact Or.inr ⟨List.mem_cons_self _ _, rfl⟩
        · rw [alGet_alSet_ne _ hid] at h1
          exact Or.inl h1
      · exact Or.inr ⟨List.mem_cons_of_mem _ h1.1, h1.2⟩
    | some w =>
      by_cases hv : L + 1 > w
      · rw [relax_cons_lt L rest queue halt hv] at h
        rcases ih _ _ id v' h with h1 | h1
        · by_cases hid : id = nb
          · subst hid
            rw [alGet_alSet_self] at h1
            cases h1
            exact Or.inr ⟨List.mem_cons_self _ _, rfl⟩
          · rw [alGet_alSet_ne _ hid] at h1
            exact Or.inl h1
        · exact Or.inr ⟨List.mem_cons_of_mem _ h1.1, h1.2⟩
      · rw [relax_cons_ge L rest queue halt hv] at h
        rcases ih _ _ id v' h with h1 | h1
        · exact Or.inl h1
        · exact Or.inr ⟨List.mem_cons_of_mem _ h1.1, h1.2⟩

theorem relax_queue_suffix (L : ℕ) : ∀ (ns : List String) (levels : List (String × ℕ)) (queue : List String),
    ∃ added, (relax_neighbors L ns levels queue).2 = queue ++ added ∧
      ∀ a ∈ added, a ∈ ns ∧ ((alGet (relax_neighbors L ns levels queue).1 a).isSome) := by
  intro ns
  induction ns with
  | nil => exact fun levels queue => ⟨[], by simp [relax_neighbors], by simp⟩
  | cons nb rest ih =>
    intro levels queue
    cases halt : alGet levels nb with
    | none =>
      rw [relax_cons_new L rest queue halt]
      obtain ⟨added, h1, h2⟩ := ih (alSet levels nb (L + 1)) (queue ++ [nb])
      refine ⟨nb :: added, by rw [h1]; simp, ?_⟩
      intro a ha
      rcases List.mem_cons.mp ha with rfl | ha
      · refine ⟨List.mem_cons_self _ _, ?_⟩
        obtain ⟨v', hv', _⟩ := relax_get_mono L rest (alSet levels a (L + 1)) (queue ++ [a]) a (L + 1)
          (alGet_alSet_self _ _ _)
        simp [hv']
      · obtain ⟨h3, h4⟩ := h2 a ha
        exact ⟨List.mem_cons_of_mem _ h3, h4⟩
    | some w =>
      by_cases hv : L + 1 > w
      · rw [relax_cons_lt L rest queue halt hv]
        obtain ⟨added, h1, h2⟩ := ih (alSet levels nb (L + 1)) (queue ++ [nb])
        refine ⟨nb :: added, by rw [h1]; simp, ?_⟩
        intro a ha
        rcases List.mem_cons.mp ha with rfl | ha
        · refine ⟨List.mem_cons_self _ _, ?_⟩
          obtain ⟨v', hv', _⟩ := relax_get_mono L rest (alSet levels a (L + 1)) (queue ++ [a]) a (L + 1)
            (alGet_alSet_self _ _ _)
          simp [hv']
        · obtain ⟨h3, h4⟩ := h2 a ha
          exact ⟨List.mem_cons_of_mem _ h3, h4⟩
      · rw [relax_cons_ge L rest queue halt hv]
        obtain ⟨added, h1, h2⟩ := ih levels queue
        refine ⟨added, h1, ?_⟩
        intro a ha
        obtain ⟨h3, h4⟩ := h2 a ha
        exact ⟨List.mem_cons_of_mem _ h3, h4⟩

theorem relax_changed_in_queue (L : ℕ) : ∀ (ns : List String) (levels : List (String × ℕ)) (queue : List String)
    (id : String), alGet (relax_neighbors L ns levels queue).1 id ≠ alGet levels id →
    id ∈ (relax_neighbors L ns levels queue).2 := by
  intro ns
  induction ns with
  | nil => exact fun levels queue id h => absurd rfl h
  | cons nb rest ih =>
    intro levels queue id h
    cases halt : alGet levels nb with
    | none =>
      rw [relax_cons_new L rest queue halt] at h ⊢
      by_cases hch : alGet (relax_neighbors L rest (alSet levels nb (L + 1)) (queue ++ [nb])).1 id =
          alGet (alSet levels nb (L + 1)) id
      · by_cases hid : id = nb
        · subst hid
          obtain ⟨added, hq, _⟩ := relax_queue_suffix L rest (alSet levels id (L + 1)) (queue ++ [id])
          rw [hq]
          simp
        · rw [hch, alGet_alSet_ne _ hid] at h
          exact absurd rfl h
      · exact ih _ _ id hch
    | some w =>
      by_cases hv : L + 1 > w
      · rw [relax_cons_lt L rest queue halt hv] at h ⊢
        by_cases hch : alGet (relax_neighbors L rest (alSet levels nb (L + 1)) (queue ++ [nb])).1 id =
            alGet (alSet levels nb (L + 1)) id
        · by_cases hid : id = nb
          · subst hid
            obtain ⟨added, hq, _⟩ := relax_queue_suffix L rest (alSet levels id (L + 1)) (queue ++ [id])
            rw [hq]
            simp
          · rw [hch, alGet_alSet_ne _ hid] at h
            exact absurd rfl h
        · exact ih _ _ id hch
      · rw [relax_cons_ge L rest queue halt hv] at h ⊢
        exact ih _ _ id h

theorem relax_relaxed_ge (L : ℕ) : ∀ (ns : List String) (levels : List (String × ℕ)) (queue : List String),
    ∀ t ∈ ns, ∃ v', alGet (relax_neighbors L ns levels queue).1 t = some v' ∧ L + 1 ≤ v' := by
  intro ns
  induction ns with
  | nil => exact fun levels queue t ht => absurd ht (List.not_mem_nil t)
  | cons nb rest ih =>
    intro levels queue t ht
    cases halt : alGet levels nb with
    | none =>
      rw [relax_cons_new L rest queue halt]
      rcases List.mem_cons.mp ht with rfl | ht
      · obtain ⟨v', h1, h2⟩ := relax_get_mono L rest (alSet levels t (L + 1)) (queue ++ [t]) t (L + 1)
          (alGet_alSet_self _ _ _)
        exact ⟨v', h1, by omega⟩
      · exact ih _ _ t ht
    | some w =>
      by_cases hv : L + 1 > w
      · rw [relax_cons_lt L rest queue halt hv]
        rcases List.mem_cons.mp ht with rfl | ht
        · obtain ⟨v', h1, h2⟩ := relax_get_mono L rest (alSet levels t (L + 1)) (queue ++ [t]) t (L + 1)
            (alGet_alSet_self _ _ _)
          exact ⟨v', h1, by omega⟩
        · exact ih _ _ t ht
      · rw [relax_cons_ge L rest queue halt hv]
        rcases List.mem_cons.mp ht with rfl | ht
        · obtain ⟨v', h1, h2⟩ := relax_get_mono L rest levels queue t w halt
          exact ⟨v', h1, by omega⟩
        · exact ih _ _ t ht

/-! ### Seeding, setdefault and run-loop preservation -/

theorem seed_fold_spec (inc : List (String × List String)) (nodes : List FigureNode) :
    ∀ (acc : List (String × ℕ) × List String),
    ((alKeys acc.1).Nodup ∧ (∀ id v, alGet acc.1 id = some v → v = 0) ∧
      (∀ id, (alGet acc.1 id).isSome ↔ id ∈ acc.2)) →
    ((alKeys (nodes.foldl (fun p n =>
        if (alGet inc n.identifier).isNone
        then (alSet p.1 n.identifier 0, p.2 ++ [n.identifier]) else p) acc).1).Nodup ∧
     (∀ id v, alGet (nodes.foldl (fun p n =>
        if (alGet inc n.identifier).isNone
        then (alSet p.1 n.identifier 0, p.2 ++ [n.identifier]) else p) acc).1 id = some v → v = 0) ∧
     (∀ id, (alGet (nodes.foldl (fun p n =>
        if (alGet inc n.identifier).isNone
        then (alSet p.1 n.identifier 0, p.2 ++ [n.identifier]) else p) acc).1 id).isSome ↔
        id ∈ (nodes.foldl (fun p n =>
        if (alGet inc n.identifier).isNone
        then (alSet p.1 n.identifier 0, p.2 ++ [n.identifier]) else p) acc).2)) := by
  induction nodes with
  | nil => exact fun acc h => h
  | cons nd nodes ih =>
    intro acc ⟨h1, h2, h3⟩
    rw [List.foldl_cons]
    by_cases hin : (alGet inc nd.identifier).isNone
    · rw [if_pos hin]
      refine ih _ ⟨nodup_alKeys_alSet _ _ _ h1, ?_, ?_⟩
      · intro id v h
        by_cases hid : id = nd.identifier
        · subst hid
          rw [alGet_alSet_self] at h
          cases h
          rfl
        · rw [alGet_alSet_ne _ hid] at h
          exact h2 id v h
      · intro id
        by_cases hid : id = nd.identifier
        · subst hid
          rw [alGet_alSet_self]
          simp
        · rw [alGet_alSet_ne _ hid]
          rw [h3 id]
          simp [hid]
    · rw [if_neg hin]
      exact ih _ ⟨h1, h2, h3⟩

theorem seed_queue_spec (inc : List (String × List String)) (nodes : List FigureNode) :
    (alKeys (seed_queue inc nodes).1).Nodup ∧
    (∀ id v, alGet (seed_queue inc nodes).1 id = some v → v = 0) ∧
    (∀ id, (alGet (seed_queue inc nodes).1 id).isSome ↔ id ∈ (seed_queue inc nodes).2) := by
  exact seed_fold_spec inc nodes ([], []) ⟨List.nodup_nil, by simp [alGet], by simp [alGet]⟩

theorem seed_fold_queue_mem (inc : List (String × List String)) (nodes : List FigureNode) :
    ∀ (acc : List (String × ℕ) × List String) (id : String),
    (id ∈ (nodes.foldl (fun p n =>
        if (alGet inc n.identifier).isNone
        then (alSet p.1 n.identifier 0, p.2 ++ [n.identifier]) else p) acc).2 ↔
      id ∈ acc.2 ∨ ∃ n ∈ nodes, n.identifier = id ∧ alGet inc id = none) := by
  induction nodes with
  | nil => simp
  | cons nd nodes ih =>
    intro acc id
    rw [List.foldl_cons]
    by_cases hin : (alGet inc nd.identifier).isNone
    · rw [if_pos hin]
      rw [ih]
      have hin2 : alGet inc nd.identifier = none := Option.isNone_iff_eq_none.mp hin
      simp only [List.mem_append, List.mem_singleton, List.mem_cons]
      aesop
    · rw [if_neg hin]
      rw [ih]
      simp only [List.mem_cons]
      constructor
      · rintro (h | h)
        · exact Or.inl h
        · obtain ⟨n, hn, h1, h2⟩ := h
          exact Or.inr ⟨n, Or.inr hn, h1, h2⟩
      · rintro (h | ⟨n, hn, h1, h2⟩)
        · exact Or.inl h
        · rcases hn with rfl | hn
          · subst h1
            rw [h2] at hin
            simp at hin
          · exact Or.inr ⟨n, hn, h1, h2⟩

theorem seed_queue_mem (inc : List (String × List String)) (nodes : List FigureNode) (id : String) :
    id ∈ (seed_queue inc nodes).2 ↔ ∃ n ∈ nodes, n.identifier = id ∧ alGet inc id = none := by
  rw [seed_queue, seed_fold_queue_mem]
  simp

theorem setdefault_fold_get_some (nodes : List FigureNode) :
    ∀ (m : List (String × ℕ)) (id : String) (v : ℕ), alGet m id = some v →
    alGet (nodes.foldl (fun lv n => alSetdefault lv n.identifier 0) m) id = some v := by
  induction nodes with
  | nil => exact fun m id v h => h
  | cons nd nodes ih =>
    intro m id v h
    rw [List.foldl_cons]
    refine ih _ id v ?_
    by_cases hid : id = nd.identifier
    · subst hid
      rw [alGet_alSetdefault_self, h]
      rfl
    · rw [alGet_alSetdefault_ne _ hid]
      exact h

theorem setdefault_fold_covers (nodes : List FigureNode) :
    ∀ (m : List (String × ℕ)) (n : FigureNode), n ∈ nodes →
    (alGet (nodes.foldl (fun lv n => alSetdefault lv n.identifier 0) m) n.identifier).isSome := by
  induction nodes with
  | nil => exact fun m n h => absurd h (List.not_mem_nil n)
  | cons nd nodes ih =>
    intro m n hmem
    rw [List.foldl_cons]
    rcases List.mem_cons.mp hmem with rfl | hmem
    · have h := alGet_alSetdefault_self m n.identifier 0
      have hsome : (alGet (alSetdefault m n.identifier 0) n.identifier).isSome := by
        rw [h]
        rfl
      obtain ⟨v, hv⟩ := Option.isSome_iff_exists.mp hsome
      have := setdefault_fold_get_some nodes (alSetdefault m n.identifier 0) n.identifier v hv
      simp [this]
    · exact ih _ n hmem

theorem setdefault_fold_cases (nodes : List FigureNode) :
    ∀ (m : List (String × ℕ)) (id : String) (v : ℕ),
    alGet (nodes.foldl (fun lv n => alSetdefault lv n.identifier 0) m) id = some v →
    alGet m id = some v ∨ (v = 0 ∧ ∃ n ∈ nodes, n.identifier = id) := by
  induction nodes with
  | nil => exact fun m id v h => Or.inl h
  | cons nd nodes ih =>
    intro m id v h
    rw [List.foldl_cons] at h
    rcases ih _ id v h with h1 | h1
    · by_cases hid : id = nd.identifier
      · rw [hid] at h1 ⊢
        rw [alGet_alSetdefault_self] at h1
        cases hm : alGet m nd.identifier with
        | none =>
          rw [hm] at h1
          cases h1
          exact Or.inr ⟨rfl, nd, List.mem_cons_self _ _, rfl⟩
        | some w =>
          rw [hm] at h1
          cases h1
          refine Or.inl ?_
          rfl
      · rw [alGet_alSetdefault_ne _ hid] at h1
        exact Or.inl h1
    · obtain ⟨hv0, n, hn, h2⟩ := h1
      exact Or.inr ⟨hv0, n, List.mem_cons_of_mem _ hn, h2⟩

theorem setdefault_fold_nodup (nodes : List FigureNode) :
    ∀ (m : List (String × ℕ)), (alKeys m).Nodup →
    (alKeys (nodes.foldl (fun lv n => alSetdefault lv n.identifier 0) m)).Nodup := by
  induction nodes with
  | nil => exact fun m h => h
  | cons nd nodes ih =>
    intro m h
    rw [List.foldl_cons]
    exact ih _ (nodup_alKeys_alSetdefault _ _ _ h)

theorem run_layers_nodup (outgoing : List (String × List String)) :
    ∀ (fuel : ℕ) (levels : List (String × ℕ)) (queue : List String) (levelsR : List (String × ℕ)),
    (alKeys levels).Nodup →
    run_layers outgoing fuel levels queue = some (Except.ok levelsR) →
    (alKeys levelsR).Nodup := by
  intro fuel
  induction fuel with
  | zero =>
    intro levels queue levelsR h hrun
    cases queue with
    | nil =>
      simp only [run_layers, Option.some.injEq] at hrun
      cases hrun
      exact h
    | cons c rest => simp [run_layers] at hrun
  | succ n ih =>
    intro levels queue levelsR h hrun
    cases queue with
    | nil =>
      simp only [run_layers, Option.some.injEq] at hrun
      cases hrun
      exact h
    | cons c rest =>
      simp only [run_layers] at hrun
      cases hc : alGet levels c with
      | none =>
        rw [hc] at hrun
        simp at hrun
      | some L =>
        rw [hc] at hrun
        simp only at hrun
        exact ih _ _ _ (relax_nodup L _ levels rest h) hrun

theorem run_layers_get_mono (outgoing : List (String × List String)) :
    ∀ (fuel : ℕ) (levels : List (String × ℕ)) (queue : List String) (levelsR : List (String × ℕ)),
    run_layers outgoing fuel levels queue = some (Except.ok levelsR) →
    ∀ (id : String) (v : ℕ), alGet levels id = some v → ∃ v', alGet levelsR id = some v' ∧ v ≤ v' := by
  intro fuel
  induction fuel with
  | zero =>
    intro levels queue levelsR hrun id v h
    cases queue with
    | nil =>
      simp only [run_layers, Option.some.injEq] at hrun
      cases hrun
      exact ⟨v, h, le_refl v⟩
    | cons c rest => simp [run_layers] at hrun
  | succ n ih =>
    intro levels queue levelsR hrun id v h
    cases queue with
    | nil =>
      simp only [run_layers, Option.some.injEq] at hrun
      cases hrun
      exact ⟨v, h, le_refl v⟩
    | cons c rest =>
      simp only [run_layers] at hrun
      cases hc : alGet levels c with
      | none =>
        rw [hc] at hrun
        simp at hrun
      | some L =>
        rw [hc] at hrun
        simp only at hrun
        obtain ⟨w, hw1, hw2⟩ := relax_get_mono L ((alGet outgoing c).getD []) levels rest id v h
        obtain ⟨v', h1, h2⟩ := ih _ _ _ hrun id w hw1
        exact ⟨v', h1, le_trans hw2 h2⟩

/-! ### Elimination principles for successful runs -/

theorem place_rows_isSome_of_ok (lookup : List (String × FigureNode)) (x y : ℚ) :
    ∀ (ids : List String) (i : ℕ) (out : List PositionedNode),
    place_rows lookup x y ids i = Except.ok out →
    ∀ id ∈ ids, (alGet lookup id).isSome := by
  intro ids
  induction ids with
  | nil => exact fun i out h id hid => absurd hid (List.not_mem_nil id)
  | cons id0 rest ih =>
    intro i out h id hid
    simp only [place_rows] at h
    cases hlook : alGet lookup id0 with
    | none =>
      rw [hlook] at h
      cases h
    | some n =>
      rw [hlook] at h
      rcases List.mem_cons.mp hid with rfl | hid
      · simp [hlook]
      · cases hrest : place_rows lookup x y rest (i + 1) with
        | error e =>
          rw [hrest] at h
          cases h
        | ok tail =>
          exact ih (i + 1) tail hrest id hid

theorem place_levels_isSome_of_ok (lookup : List (String × FigureNode)) (height : ℚ)
    (cols : List (ℕ × List String)) :
    ∀ (lvs : List ℕ) (ci : ℕ) (out : List PositionedNode),
    place_levels lookup height cols lvs ci = Except.ok out →
    ∀ lv ∈ lvs, ∀ id ∈ sorted_column cols lv, (alGet lookup id).isSome := by
  intro lvs
  induction lvs with
  | nil => exact fun ci out h lv hlv => absurd hlv (List.not_mem_nil lv)
  | cons lv0 rest ih =>
    intro ci out h lv hlv
    simp only [place_levels] at h
    cases hrows : place_rows lookup (MARGIN + (ci : ℚ) * NODE_SPACING.1)
        (max MARGIN ((height - NODE_SPACING.2 *
          (((max 1 ((List.insertionSort (fun a b : String => a ≤ b)
            ((alGet cols lv0).getD [])).length - 1)) : ℕ) : ℚ)) / 2))
        (List.insertionSort (fun a b : String => a ≤ b) ((alGet cols lv0).getD [])) 0 with
    | error e =>
      rw [hrows] at h
      cases h
    | ok here =>
      rw [hrows] at h
      rcases List.mem_cons.mp hlv with rfl | hlv
      · exact place_rows_isSome_of_ok _ _ _ _ _ _ hrows
      · cases hrest : place_levels lookup height cols rest (ci + 1) with
        | error e =>
          rw [hrest] at h
          cases h
        | ok tail =>
          exact ih (ci + 1) tail hrest lv hlv

/-- The list `sorted(columns)` that `compute_layout` iterates over. -/
def sorted_levels_list (levels : List (String × ℕ)) : List ℕ :=
  List.insertionSort (fun a b : ℕ => a ≤ b) ((build_columns levels).map (·.1))

theorem assign_layers_ok_elim (plan : FigurePlan) (fuel : ℕ) (levels : List (String × ℕ))
    (h : assign_layers plan fuel = some (Except.ok levels)) :
    ∃ (levels0 : List (String × ℕ)) (queue0 : List String) (levelsR : List (String × ℕ)),
      run_layers (build_outgoing plan.edges) fuel levels0 queue0 = some (Except.ok levelsR) ∧
      levels = plan.nodes.foldl (fun lv n => alSetdefault lv n.identifier 0) levelsR ∧
      (alKeys levels0).Nodup ∧
      (∀ id v, alGet levels0 id = some v → v = 0) := by
  obtain ⟨nodes, edges, title, desc⟩ := plan
  obtain ⟨hnodup, hzero, hiff⟩ := seed_queue_spec (build_incoming edges) nodes
  by_cases hq : (seed_queue (build_incoming edges) nodes).2.isEmpty
  · cases nodes with
    | nil =>
      have hcontra : assign_layers ⟨[], edges, title, desc⟩ fuel =
          some (Except.error PyErr.indexError) := by
        simp only [assign_layers]
        rw [if_pos hq]
      rw [hcontra] at h
      cases h
    | cons n0 ns =>
      have hunf : assign_layers ⟨n0 :: ns, edges, title, desc⟩ fuel =
          match run_layers (build_outgoing edges) fuel
              (alSet (seed_queue (build_incoming edges) (n0 :: ns)).1 n0.identifier 0)
              ((seed_queue (build_incoming edges) (n0 :: ns)).2 ++ [n0.identifier]) with
          | some (Except.ok levelsR) =>
              some (Except.ok ((n0 :: ns).foldl (fun lv n => alSetdefault lv n.identifier 0) levelsR))
          | other => other := by
        simp only [assign_layers]
        rw [if_pos hq]
      rw [hunf] at h
      cases hrun : run_layers (build_outgoing edges) fuel
          (alSet (seed_queue (build_incoming edges) (n0 :: ns)).1 n0.identifier 0)
          ((seed_queue (build_incoming edges) (n0 :: ns)).2 ++ [n0.identifier]) with
      | none =>
        rw [hrun] at h
        cases h
      | some r =>
        cases r with
        | error e =>
          rw [hrun] at h
          cases h
        | ok levelsR =>
          rw [hrun] at h
          refine ⟨_, _, levelsR, hrun, ?_, nodup_alKeys_alSet _ _ _ hnodup, ?_⟩
          · cases h
            rfl
          · intro id v hv
            by_cases hid : id = n0.identifier
            · subst hid
              rw [alGet_alSet_self] at hv
              cases hv
              rfl
            · rw [alGet_alSet_ne _ hid] at hv
              exact hzero id v hv
  · have hunf : assign_layers ⟨nodes, edges, title, desc⟩ fuel =
        match run_layers (build_outgoing edges) fuel
            (seed_queue (build_incoming edges) nodes).1
            (seed_queue (build_incoming edges) nodes).2 with
        | some (Except.ok levelsR) =>
            some (Except.ok (nodes.foldl (fun lv n => alSetdefault lv n.identifier 0) levelsR))
        | other => other := by
      simp only [assign_layers]
      rw [if_neg hq]
    rw [hunf] at h
    cases hrun : run_layers (build_outgoing edges) fuel
        (seed_queue (build_incoming edges) nodes).1
        (seed_queue (build_incoming edges) nodes).2 with
    | none =>
      rw [hrun] at h
      cases h
    | some r =>
      cases r with
      | error e =>
        rw [hrun] at h
        cases h
      | ok levelsR =>
        rw [hrun] at h
        refine ⟨_, _, levelsR, hrun, ?_, hnodup, hzero⟩
        cases h
        rfl

theorem assign_layers_ok_levels (plan : FigurePlan) (fuel : ℕ) (levels : List (String × ℕ))
    (h : assign_layers plan fuel = some (Except.ok levels)) :
    (alKeys levels).Nodup ∧ (∀ n ∈ plan.nodes, (alGet levels n.identifier).isSome) := by
  obtain ⟨levels0, queue0, levelsR, hrun, heq, hnodup0, _⟩ := assign_layers_ok_elim plan fuel levels h
  constructor
  · rw [heq]
    exact setdefault_fold_nodup _ _ (run_layers_nodup _ _ _ _ _ hnodup0 hrun)
  · intro n hn
    rw [heq]
    exact setdefault_fold_covers _ _ n hn

theorem mem_iff_getElem_opt {α : Type} (l : List α) (a : α) :
    a ∈ l ↔ ∃ i : ℕ, l[i]? = some a := by
  constructor
  · intro h
    obtain ⟨i, hi, he⟩ := List.getElem_of_mem h
    exact ⟨i, by simp [List.getElem?_eq_getElem hi, he]⟩
  · rintro ⟨i, hi⟩
    obtain ⟨hlt, he⟩ := List.getElem?_eq_some.mp hi
    exact he ▸ List.getElem_mem hlt

theorem place_rows_char (lookup : List (String × FigureNode)) (x y : ℚ)
    (ids : List String) (b : List PositionedNode)
    (h : place_rows lookup x y ids 0 = Except.ok b) :
    b.length = ids.length ∧
    ∀ j, j < ids.length →
      ∃ id n, ids[j]? = some id ∧ alGet lookup id = some n ∧
        b[j]? = some (position_node n x (y + (j : ℚ) * NODE_SPACING.2)) := by
  have hs := place_rows_isSome_of_ok lookup x y ids 0 b h
  obtain ⟨out, hout, hlen, hptr⟩ := place_rows_ok lookup x y ids 0 hs
  rw [h] at hout
  cases hout
  refine ⟨hlen, fun j hj => ?_⟩
  obtain ⟨id, n, h1, h2, h3⟩ := hptr j hj
  refine ⟨id, n, h1, h2, ?_⟩
  rw [h3]
  norm_num

theorem block_x_mem (lookup : List (String × FigureNode)) (x y : ℚ)
    (ids : List String) (b : List PositionedNode)
    (h : place_rows lookup x y ids 0 = Except.ok b) :
    ∀ p ∈ b, p.x = x := by
  obtain ⟨hlen, hptr⟩ := place_rows_char lookup x y ids b h
  intro p hp
  obtain ⟨j, hj⟩ := (mem_iff_getElem_opt b p).mp hp
  have hjlt : j < ids.length := by
    rw [← hlen]
    exact (List.getElem?_eq_some.mp hj).1
  obtain ⟨id, n, h1, h2, h3⟩ := hptr j hjlt
  rw [hj] at h3
  cases h3
  rfl

theorem block_forget (lookup : List (String × FigureNode)) (x y : ℚ)
    (ids : List String) (b : List PositionedNode)
    (hlook : ∀ id n, alGet lookup id = some n → n.identifier = id)
    (h : place_rows lookup x y ids 0 = Except.ok b) :
    ∀ p ∈ b, alGet lookup p.identifier = some (forget_position p) := by
  obtain ⟨hlen, hptr⟩ := place_rows_char lookup x y ids b h
  intro p hp
  obtain ⟨j, hj⟩ := (mem_iff_getElem_opt b p).mp hp
  have hjlt : j < ids.length := by
    rw [← hlen]
    exact (List.getElem?_eq_some.mp hj).1
  obtain ⟨id, n, h1, h2, h3⟩ := hptr j hjlt
  rw [hj] at h3
  cases h3
  have hni : n.identifier = id := hlook id n h2
  simp only [position_node, forget_position, hni, h2]
  rw [← hni]

theorem block_ids (lookup : List (String × FigureNode)) (x y : ℚ)
    (ids : List String) (b : List PositionedNode)
    (hlook : ∀ id n, alGet lookup id = some n → n.identifier = id)
    (h : place_rows lookup x y ids 0 = Except.ok b) :
    b.map (·.identifier) = ids := by
  obtain ⟨hlen, hptr⟩ := place_rows_char lookup x y ids b h
  refine List.ext_getElem? ?_
  intro j
  by_cases hj : j < ids.length
  · obtain ⟨id, n, h1, h2, h3⟩ := hptr j hj
    rw [List.getElem?_map, h3, h1]
    simp [position_node, hlook id n h2]
  · rw [List.getElem?_eq_none, List.getElem?_eq_none]
    · omega
    · simp
      omega

theorem sorted_column_nodup (levels : List (String × ℕ)) (hn : (alKeys levels).Nodup) (lv : ℕ) :
    (sorted_column (build_columns levels) lv).Nodup := by
  have hperm := build_columns_flatten_perm levels
  have hnod : (((build_columns levels).map (·.2)).flatten).Nodup := by
    rw [List.Perm.nodup_iff hperm]
    exact hn
  have hraw : ((alGet (build_columns levels) lv).getD []).Nodup := by
    cases halg : alGet (build_columns levels) lv with
    | none => simp
    | some col =>
      have hmem : (lv, col) ∈ build_columns levels := alGet_eq_some_mem halg
      have hsub : col.Sublist (((build_columns levels).map (·.2)).flatten) :=
        List.sublist_flatten_of_mem (List.mem_map.mpr ⟨(lv, col), hmem, rfl⟩)
      simpa using hnod.sublist hsub
  rw [sorted_column]
  exact ((List.perm_insertionSort _ _).nodup_iff).mpr hraw

theorem sorted_column_sorted (cols : List (ℕ × List String)) (lv : ℕ) :
    List.Sorted (fun a b : String => a ≤ b) (sorted_column cols lv) :=
  List.sorted_insertionSort _ _

theorem sorted_levels_list_sorted (levels : List (String × ℕ)) :
    List.Pairwise (fun a b : ℕ => a < b) (sorted_levels_list levels) := by
  have hs : List.Sorted (fun a b : ℕ => a ≤ b) (sorted_levels_list levels) :=
    List.sorted_insertionSort _ _
  have hn : (sorted_levels_list levels).Nodup := by
    rw [sorted_levels_list]
    exact ((List.perm_insertionSort _ _).nodup_iff).mpr (nodup_alKeys_build_columns levels)
  refine (hs.and hn).imp ?_
  rintro a b ⟨h1, h2⟩
  exact lt_of_le_of_ne h1 h2

theorem compute_layout_blocks (plan : FigurePlan) (cs : Option (ℚ × ℚ)) (fuel : ℕ)
    (res : LayoutResult) (h : compute_layout plan cs fuel = some (Except.ok res)) :
    ∃ (levels : List (String × ℕ)) (blocks : List (List PositionedNode)),
      assign_layers plan fuel = some (Except.ok levels) ∧
      res.width = (cs.getD DEFAULT_CANVAS_SIZE).1 ∧
      res.height = (cs.getD DEFAULT_CANVAS_SIZE).2 ∧
      res.edges = plan.edges ∧
      res.nodes = blocks.flatten ∧
      blocks.length = (sorted_levels_list levels).length ∧
      ∀ j, j < (sorted_levels_list levels).length →
        ∃ lv b, (sorted_levels_list levels)[j]? = some lv ∧ blocks[j]? = some b ∧
          place_rows (node_map plan) (col_x j)
            (col_y_offset res.height (sorted_column (build_columns levels) lv).length)
            (sorted_column (build_columns levels) lv) 0 = Except.ok b := by
  have hunf : compute_layout plan cs fuel =
      match assign_layers plan fuel with
      | none => none
      | some (Except.error e) => some (Except.error e)
      | some (Except.ok levels) =>
        match place_levels (node_map plan) (cs.getD DEFAULT_CANVAS_SIZE).2 (build_columns levels)
            (sorted_levels_list levels) 0 with
        | Except.error e => some (Except.error e)
        | Except.ok ns => some (Except.ok ⟨(cs.getD DEFAULT_CANVAS_SIZE).1,
            (cs.getD DEFAULT_CANVAS_SIZE).2, ns, plan.edges⟩) := rfl
  rw [hunf] at h
  cases ha : assign_layers plan fuel with
  | none =>
    rw [ha] at h
    cases h
  | some r =>
    cases r with
    | error e =>
      rw [ha] at h
      cases h
    | ok levels =>
      rw [ha] at h
      simp only [] at h
      cases hp : place_levels (node_map plan) (cs.getD DEFAULT_CANVAS_SIZE).2 (build_columns levels)
          (sorted_levels_list levels) 0 with
      | error e =>
        rw [hp] at h
        cases h
      | ok ns =>
        rw [hp] at h
        cases h
        have hlook := place_levels_isSome_of_ok (node_map plan) (cs.getD DEFAULT_CANVAS_SIZE).2
          (build_columns levels) (sorted_levels_list levels) 0 ns hp
        obtain ⟨out, blocks, hout, hflat, hlen, hptr⟩ := place_levels_ok (node_map plan)
          (cs.getD DEFAULT_CANVAS_SIZE).2 (build_columns levels) (sorted_levels_list levels) 0 hlook
        rw [hp] at hout
        cases hout
        refine ⟨levels, blocks, rfl, rfl, rfl, rfl, hflat, hlen, ?_⟩
        intro j hj
        obtain ⟨lv, b, h1, h2, h3⟩ := hptr j hj
        refine ⟨lv, b, h1, h2, ?_⟩
        have hz : 0 + j = j := by omega
        rw [← hz]
        exact h3

theorem col_x_lt {i j : ℕ} (h : i < j) : col_x i < col_x j := by
  simp only [col_x, NODE_SPACING]
  have hij : (i : ℚ) < (j : ℚ) := by exact_mod_cast h
  nlinarith

theorem col_x_inj {i j : ℕ} (h : col_x i = col_x j) : i = j := by
  rcases lt_trichotomy i j with hlt | heq | hgt
  · exact absurd h (ne_of_lt (col_x_lt hlt))
  · exact heq
  · exact absurd h.symm (ne_of_lt (col_x_lt hgt))

/-- C10: on every successful layout, the emitted nodes are globally
ordered: ascending by column (hence by x coordinate), and within a column
ascending lexicographically by identifier. -/
theorem claim_C10_output_globally_sorted (plan : FigurePlan) (cs : Option (ℚ × ℚ)) (fuel : ℕ)
    (res : LayoutResult) (h : compute_layout plan cs fuel = some (Except.ok res)) :
    res.nodes.Pairwise (fun p q => p.x < q.x ∨ (p.x = q.x ∧ p.identifier < q.identifier)) := by
  obtain ⟨levels, blocks, ha, hw, hh, he, hflat, hlen, hptr⟩ :=
    compute_layout_blocks plan cs fuel res h
  obtain ⟨hnodup, hcov⟩ := assign_layers_ok_levels plan fuel levels ha
  rw [hflat, List.pairwise_flatten]
  constructor
  · intro b hb
    obtain ⟨j, hj⟩ := (mem_iff_getElem_opt blocks b).mp hb
    have hjlt : j < (sorted_levels_list levels).length := by
      rw [← hlen]
      exact (List.getElem?_eq_some.mp hj).1
    obtain ⟨lv, b', h1, h2, h3⟩ := hptr j hjlt
    rw [hj] at h2
    cases h2
    have hids : b.map (·.identifier) = sorted_column (build_columns levels) lv :=
      block_ids _ _ _ _ _ (fun id n hn => (alGet_node_map_cases plan id n hn).1) h3
    have hsorted : (sorted_column (build_columns levels) lv).Pairwise
        (fun a b : String => a < b) := by
      refine ((sorted_column_sorted (build_columns levels) lv).and
        (sorted_column_nodup levels hnodup lv)).imp ?_
      rintro a c ⟨hle, hne⟩
      exact lt_of_le_of_ne hle hne
    have hpw : b.Pairwise (fun p q => p.identifier < q.identifier) := by
      rw [← List.pairwise_map]
      rw [hids]
      exact hsorted
    have hx := block_x_mem _ _ _ _ _ h3
    exact List.Pairwise.imp_of_mem
      (fun hp hq hlt => Or.inr ⟨by rw [hx _ hp, hx _ hq], hlt⟩) hpw
  · rw [List.pairwise_iff_getElem]
    intro i j hi hj hij
    intro p hp q hq
    have hilt : i < (sorted_levels_list levels).length := by
      rw [← hlen]
      exact hi
    have hjlt : j < (sorted_levels_list levels).length := by
      rw [← hlen]
      exact hj
    obtain ⟨lvi, bi, hi1, hi2, hi3⟩ := hptr i hilt
    obtain ⟨lvj, bj, hj1, hj2, hj3⟩ := hptr j hjlt
    have hbi : bi = blocks[i] := by
      have := List.getElem?_eq_getElem hi
      rw [this] at hi2
      exact ((Option.some.injEq _ _).mp hi2).symm
    have hbj : bj = blocks[j] := by
      have := List.getElem?_eq_getElem hj
      rw [this] at hj2
      exact ((Option.some.injEq _ _).mp hj2).symm
    left
    rw [show p.x = col_x i from block_x_mem _ _ _ _ _ hi3 p (hbi ▸ hp),
      show q.x = col_x j from block_x_mem _ _ _ _ _ hj3 q (hbj ▸ hq)]
    exact col_x_lt hij

/-- C7: on every successful layout, the distinct occupied layer values are
listed in strictly ascending order, every emitted node's x coordinate is
`60 + i * 200` where `i` is the column index of its layer in that list,
and every column index up to the number of occupied layers is inhabited
(a gap in layer values leaves no empty column). -/
theorem claim_C7_columns_consecutive (plan : FigurePlan) (cs : Option (ℚ × ℚ)) (fuel : ℕ)
    (levels : List (String × ℕ)) (res : LayoutResult)
    (ha : assign_layers plan fuel = some (Except.ok levels))
    (h : compute_layout plan cs fuel = some (Except.ok res)) :
    (sorted_levels_list levels).Pairwise (fun a b : ℕ => a < b) ∧
    (∀ p ∈ res.nodes, ∃ (i : ℕ) (lv : ℕ), (sorted_levels_list levels)[i]? = some lv ∧
        alGet levels p.identifier = some lv ∧ p.x = 60 + (i : ℚ) * 200) ∧
    (∀ i, i < (sorted_levels_list levels).length →
        ∃ p ∈ res.nodes, p.x = 60 + (i : ℚ) * 200) := by
  obtain ⟨levels', blocks, ha', hw, hh, he, hflat, hlen, hptr⟩ :=
    compute_layout_blocks plan cs fuel res h
  rw [ha] at ha'
  cases ha'
  obtain ⟨hnodup, hcov⟩ := assign_layers_ok_levels plan fuel levels ha
  have hcolx : ∀ i : ℕ, col_x i = 60 + (i : ℚ) * 200 := by
    intro i
    simp [col_x, MARGIN, NODE_SPACING]
  refine ⟨sorted_levels_list_sorted levels, ?_, ?_⟩
  · intro p hp
    rw [hflat] at hp
    obtain ⟨b, hbmem, hpb⟩ := List.mem_flatten.mp hp
    obtain ⟨j, hj⟩ := (mem_iff_getElem_opt blocks b).mp hbmem
    have hjlt : j < (sorted_levels_list levels).length := by
      rw [← hlen]
      exact (List.getElem?_eq_some.mp hj).1
    obtain ⟨lv, b', h1, h2, h3⟩ := hptr j hjlt
    rw [hj] at h2
    cases h2
    refine ⟨j, lv, h1, ?_, by rw [← hcolx j]; exact block_x_mem _ _ _ _ _ h3 p hpb⟩
    have hidmem : p.identifier ∈ sorted_column (build_columns levels) lv := by
      have hids : b.map (·.identifier) = sorted_column (build_columns levels) lv :=
        block_ids _ _ _ _ _ (fun id n hn => (alGet_node_map_cases plan id n hn).1) h3
      rw [← hids]
      exact List.mem_map.mpr ⟨p, hpb, rfl⟩
    have hraw : p.identifier ∈ (alGet (build_columns levels) lv).getD [] := by
      have := (List.perm_insertionSort (fun a b : String => a ≤ b)
        ((alGet (build_columns levels) lv).getD [])).mem_iff.mp hidmem
      exact this
    exact alGet_of_mem_nodup hnodup ((mem_build_columns levels lv p.identifier).mp hraw)
  · intro i hi
    obtain ⟨lv, b, h1, h2, h3⟩ := hptr i hi
    have hlvmem : lv ∈ sorted_levels_list levels := by
      exact (mem_iff_getElem_opt _ lv).mpr ⟨i, h1⟩
    have hlvkeys : lv ∈ alKeys (build_columns levels) := by
      have := (List.perm_insertionSort (fun a b : ℕ => a ≤ b)
        ((build_columns levels).map (·.1))).mem_iff.mp hlvmem
      exact this
    obtain ⟨col, hcol⟩ := Option.isSome_iff_exists.mp
      ((alGet_isSome_iff_mem (build_columns levels) lv).mpr hlvkeys)
    have hcolne : col ≠ [] := build_columns_values_nonempty levels (lv, col) (alGet_eq_some_mem hcol)
    have hsclen : (sorted_column (build_columns levels) lv).length = col.length := by
      rw [sorted_column, hcol]
      exact List.length_insertionSort _ _
    obtain ⟨hblen, _⟩ := place_rows_char _ _ _ _ _ h3
    have hbne : b ≠ [] := by
      intro hb
      rw [hb] at hblen
      simp only [List.length_nil] at hblen
      rw [hsclen] at hblen
      exact hcolne (List.eq_nil_of_length_eq_zero hblen.symm)
    obtain ⟨p, hp⟩ := List.exists_mem_of_ne_nil b hbne
    refine ⟨p, ?_, by rw [← hcolx i]; exact block_x_mem _ _ _ _ _ h3 p hp⟩
    rw [hflat]
    refine List.mem_flatten.mpr ⟨b, ?_, hp⟩
    exact (mem_iff_getElem_opt blocks b).mpr ⟨i, h2⟩

theorem res_ids_perm_keys (plan : FigurePlan) (cs : Option (ℚ × ℚ)) (fuel : ℕ)
    (levels : List (String × ℕ)) (res : LayoutResult)
    (ha : assign_layers plan fuel = some (Except.ok levels))
    (h : compute_layout plan cs fuel = some (Except.ok res)) :
    List.Perm (res.nodes.map (·.identifier)) (alKeys levels) := by
  obtain ⟨levels', blocks, ha', hw, hh, he, hflat, hlen, hptr⟩ :=
    compute_layout_blocks plan cs fuel res h
  rw [ha] at ha'
  cases ha'
  obtain ⟨hnodup, hcov⟩ := assign_layers_ok_levels plan fuel levels ha
  have hblocks : blocks.map (fun b => b.map (·.identifier)) =
      (sorted_levels_list levels).map (fun lv => sorted_column (build_columns levels) lv) := by
    refine List.ext_getElem? ?_
    intro j
    by_cases hj : j < (sorted_levels_list levels).length
    · obtain ⟨lv, b, h1, h2, h3⟩ := hptr j hj
      rw [List.getElem?_map, List.getElem?_map, h1, h2]
      simp only [Option.map_some']
      rw [block_ids _ _ _ _ _ (fun id n hn => (alGet_node_map_cases plan id n hn).1) h3]
    · rw [List.getElem?_map, List.getElem?_map, List.getElem?_eq_none, List.getElem?_eq_none]
      · rfl
      · omega
      · omega
  have hmap : res.nodes.map (·.identifier) =
      ((sorted_levels_list levels).map (fun lv => sorted_column (build_columns levels) lv)).flatten := by
    rw [hflat, List.map_flatten, hblocks]
  rw [hmap]
  have p1 : List.Perm
      ((sorted_levels_list levels).map (fun lv => sorted_column (build_columns levels) lv))
      (((build_columns levels).map (·.1)).map (fun lv => sorted_column (build_columns levels) lv)) :=
    (List.perm_insertionSort _ _).map _
  refine (p1.flatten).trans ?_
  have p3 : List.Forall₂ (fun a b => List.Perm a b)
      (((build_columns levels).map (·.1)).map (fun lv => sorted_column (build_columns levels) lv))
      ((build_columns levels).map (·.2)) := by
    rw [List.forall₂_map_right_iff, List.forall₂_map_left_iff, List.forall₂_map_left_iff]
    refine List.forall₂_same.mpr ?_
    intro p hp
    have hget : alGet (build_columns levels) p.1 = some p.2 :=
      alGet_of_mem_nodup (nodup_alKeys_build_columns levels) (by
        cases p
        exact hp)
    rw [sorted_column, hget]
    exact List.perm_insertionSort _ _
  refine (List.Perm.flatten_congr p3).trans ?_
  exact build_columns_flatten_perm levels

theorem res_node_lookup (plan : FigurePlan) (cs : Option (ℚ × ℚ)) (fuel : ℕ)
    (res : LayoutResult) (h : compute_layout plan cs fuel = some (Except.ok res)) :
    ∀ p ∈ res.nodes, alGet (node_map plan) p.identifier = some (forget_position p) := by
  obtain ⟨levels, blocks, ha, hw, hh, he, hflat, hlen, hptr⟩ :=
    compute_layout_blocks plan cs fuel res h
  intro p hp
  rw [hflat] at hp
  obtain ⟨b, hbmem, hpb⟩ := List.mem_flatten.mp hp
  obtain ⟨j, hj⟩ := (mem_iff_getElem_opt blocks b).mp hbmem
  have hjlt : j < (sorted_levels_list levels).length := by
    rw [← hlen]
    exact (List.getElem?_eq_some.mp hj).1
  obtain ⟨lv, b', h1, h2, h3⟩ := hptr j hjlt
  rw [hj] at h2
  cases h2
  exact block_forget _ _ _ _ _ (fun id n hn => (alGet_node_map_cases plan id n hn).1) h3 p hpb

/-- C8 amended: whenever `compute_layout` returns successfully on a plan
with unique identifiers, the result carries the original edge list
unchanged and exactly one positioned node per input node — same
identifier multiset, no duplicates — each preserving the node's label,
node_type and metadata. -/
theorem claim_C8_amended (plan : FigurePlan) (cs : Option (ℚ × ℚ)) (fuel : ℕ)
    (res : LayoutResult)
    (hids : (plan.nodes.map (·.identifier)).Nodup)
    (h : compute_layout plan cs fuel = some (Except.ok res)) :
    res.edges = plan.edges ∧
    (res.nodes.map (·.identifier)).Nodup ∧
    List.Perm (res.nodes.map forget_position) plan.nodes := by
  obtain ⟨levels, blocks, ha, hw, hh, he, hflat, hlen, hptr⟩ :=
    compute_layout_blocks plan cs fuel res h
  obtain ⟨hnodup, hcov⟩ := assign_layers_ok_levels plan fuel levels ha
  have hperm1 : List.Perm (res.nodes.map (·.identifier)) (alKeys levels) :=
    res_ids_perm_keys plan cs fuel levels res ha h
  have hlookup := res_node_lookup plan cs fuel res h
  have hkeysperm : List.Perm (alKeys levels) (plan.nodes.map (·.identifier)) := by
    refine (List.perm_ext_iff_of_nodup hnodup hids).mpr ?_
    intro id
    constructor
    · intro hid
      have hres : id ∈ res.nodes.map (·.identifier) := hperm1.mem_iff.mpr hid
      obtain ⟨p, hp, hpid⟩ := List.mem_map.mp hres
      have hl := hlookup p hp
      obtain ⟨hni, hmem⟩ := alGet_node_map_cases plan p.identifier (forget_position p) hl
      refine List.mem_map.mpr ⟨forget_position p, hmem, by rw [hni, hpid]⟩
    · intro hid
      obtain ⟨n, hn, hnid⟩ := List.mem_map.mp hid
      rw [← hnid]
      exact (alGet_isSome_iff_mem levels n.identifier).mp (hcov n hn)
  refine ⟨he, ?_, ?_⟩
  · rw [List.Perm.nodup_iff hperm1]
    exact hnodup
  · have e1 : res.nodes.map forget_position =
        (res.nodes.map (·.identifier)).map
          (fun id => (alGet (node_map plan) id).getD ⟨"", "", "", []⟩) := by
      rw [List.map_map]
      refine List.map_congr_left ?_
      intro p hp
      have hl := hlookup p hp
      simp [Function.comp, hl]
    have e2 : plan.nodes =
        (plan.nodes.map (·.identifier)).map
          (fun id => (alGet (node_map plan) id).getD ⟨"", "", "", []⟩) := by
      rw [List.map_map]
      conv_lhs => rw [show plan.nodes = plan.nodes.map (fun n => n) from (List.map_id plan.nodes).symm]
      refine List.map_congr_left ?_
      intro n hn
      simp [Function.comp, alGet_node_map_of_mem plan hids n hn]
    rw [e1, e2]
    exact (hperm1.trans hkeysperm).map _

theorem filter_flatten_blocks : ∀ (blocks : List (List PositionedNode)) (c0 : ℕ),
    (∀ (j : ℕ) (b : List PositionedNode), blocks[j]? = some b → ∀ p ∈ b, p.x = col_x (c0 + j)) →
    ∀ (v : ℚ), blocks.flatten.filter (fun p => p.x = v) = [] ∨
      ∃ (j : ℕ) (b : List PositionedNode), blocks[j]? = some b ∧ v = col_x (c0 + j) ∧
        blocks.flatten.filter (fun p => p.x = v) = b := by
  intro blocks
  induction blocks with
  | nil => exact fun c0 hx v => Or.inl rfl
  | cons b bs ih =>
    intro c0 hx v
    have h0 : ∀ p ∈ b, p.x = col_x c0 := by
      have := hx 0 b (by simp)
      simpa using this
    have hs : ∀ (j : ℕ) (b' : List PositionedNode), bs[j]? = some b' →
        ∀ p ∈ b', p.x = col_x (c0 + 1 + j) := by
      intro j b' hj p hp
      have := hx (j + 1) b' (by simpa using hj) p hp
      rw [this]
      congr 1
      omega
    rw [List.flatten_cons, List.filter_append]
    by_cases hv : v = col_x c0
    · right
      refine ⟨0, b, by simp, by rw [hv, Nat.add_zero], ?_⟩
      have hfb : b.filter (fun p => p.x = v) = b := by
        rw [List.filter_eq_self]
        intro p hp
        simp [h0 p hp, hv]
      have hfr : bs.flatten.filter (fun p => p.x = v) = [] := by
        rw [List.filter_eq_nil_iff]
        intro p hp
        obtain ⟨b', hb', hpb⟩ := List.mem_flatten.mp hp
        obtain ⟨j, hj⟩ := (mem_iff_getElem_opt bs b').mp hb'
        have hxp := hs j b' hj p hpb
        simp only [decide_eq_true_eq]
        rw [hxp, hv]
        intro hcontra
        have := col_x_inj hcontra
        omega
      rw [hfb, hfr, List.append_nil]
    · have hfb : b.filter (fun p => p.x = v) = [] := by
        rw [List.filter_eq_nil_iff]
        intro p hp
        simp only [decide_eq_true_eq]
        rw [h0 p hp]
        intro hcontra
        exact hv hcontra.symm
      rcases ih (c0 + 1) hs v with hnil | ⟨j, b', hj, hv', hfil⟩
      · left
        rw [hfb, hnil, List.append_nil]
      · right
        refine ⟨j + 1, b', by simpa using hj, by rw [hv']; congr 1; omega, ?_⟩
        rw [hfb, hfil, List.nil_append]

/-- C6: on every successful layout, the nodes sharing any given x
coordinate (i.e. sharing a layer column) are listed in strictly ascending
identifier order, and the i-th of the k nodes in that column sits at
y = max(60, (canvasHeight - 140 * max(1, k-1)) / 2) + i * 140 — so two
nodes of one layer always differ in y by 140 times their rank difference
and never coincide. -/
theorem claim_C6_layer_stacking (plan : FigurePlan) (cs : Option (ℚ × ℚ)) (fuel : ℕ)
    (res : LayoutResult) (h : compute_layout plan cs fuel = some (Except.ok res)) :
    ∀ v : ℚ,
      ((res.nodes.filter (fun p => p.x = v)).Pairwise
        (fun p q => p.identifier < q.identifier)) ∧
      (∀ i : ℕ, i < (res.nodes.filter (fun p => p.x = v)).length →
        ∃ p, (res.nodes.filter (fun p => p.x = v))[i]? = some p ∧
          p.y = max 60 ((res.height - 140 *
              ((max 1 ((res.nodes.filter (fun q => q.x = v)).length - 1) : ℕ) : ℚ)) / 2)
            + (i : ℚ) * 140) := by
  obtain ⟨levels, blocks, ha, hw, hh, he, hflat, hlen, hptr⟩ :=
    compute_layout_blocks plan cs fuel res h
  obtain ⟨hnodup, hcov⟩ := assign_layers_ok_levels plan fuel levels ha
  intro v
  have hx : ∀ (j : ℕ) (b : List PositionedNode), blocks[j]? = some b →
      ∀ p ∈ b, p.x = col_x (0 + j) := by
    intro j b hj p hp
    have hjlt : j < (sorted_levels_list levels).length := by
      rw [← hlen]
      exact (List.getElem?_eq_some.mp hj).1
    obtain ⟨lv, b', h1, h2, h3⟩ := hptr j hjlt
    rw [hj] at h2
    cases h2
    rw [Nat.zero_add]
    exact block_x_mem _ _ _ _ _ h3 p hp
  have hfilter := filter_flatten_blocks blocks 0 hx v
  rw [← hflat] at hfilter
  rcases hfilter with hnil | ⟨j, b, hj, hv, hfil⟩
  · rw [hnil]
    exact ⟨List.Pairwise.nil, fun i hi => absurd hi (by simp)⟩
  · rw [hfil]
    have hjlt : j < (sorted_levels_list levels).length := by
      rw [← hlen]
      exact (List.getElem?_eq_some.mp hj).1
    obtain ⟨lv, b', h1, h2, h3⟩ := hptr j hjlt
    rw [hj] at h2
    cases h2
    obtain ⟨hblen, hbptr⟩ := place_rows_char _ _ _ _ _ h3
    constructor
    · have hids : b.map (·.identifier) = sorted_column (build_columns levels) lv :=
        block_ids _ _ _ _ _ (fun id n hn => (alGet_node_map_cases plan id n hn).1) h3
      have hsorted : (sorted_column (build_columns levels) lv).Pairwise
          (fun a b : String => a < b) := by
        refine ((sorted_column_sorted (build_columns levels) lv).and
          (sorted_column_nodup levels hnodup lv)).imp ?_
        rintro a c ⟨hle, hne⟩
        exact lt_of_le_of_ne hle hne
      rw [← List.pairwise_map]
      rw [hids]
      exact hsorted
    · intro i hi
      have hilt : i < (sorted_column (build_columns levels) lv).length := by
        rw [← hblen]
        exact hi
      obtain ⟨id, n, hb1, hb2, hb3⟩ := hbptr i hilt
      refine ⟨position_node n (col_x j)
        (col_y_offset res.height (sorted_column (build_columns levels) lv).length
          + (i : ℚ) * NODE_SPACING.2), hb3, ?_⟩
      simp only [position_node]
      rw [← hblen]
      simp only [col_y_offset, MARGIN, NODE_SPACING]

/-- C4 amended: on every successful layout, a layer column containing
exactly one node places it at y = max(60, (canvasHeight - 140) / 2) —
the code's `max(1, k-1)` evaluates to 1 for `k = 1`, so the single node
is offset by half the 140-unit spacing from the true centre; it is not
at canvasHeight / 2. -/
theorem claim_C4_amended_single_layer_y (plan : FigurePlan) (cs : Option (ℚ × ℚ)) (fuel : ℕ)
    (res : LayoutResult) (v : ℚ) (p : PositionedNode)
    (h : compute_layout plan cs fuel = some (Except.ok res))
    (hp : res.nodes.filter (fun q => q.x = v) = [p]) :
    p.y = max 60 ((res.height - 140) / 2) := by
  obtain ⟨levels, blocks, ha, hw, hh, he, hflat, hlen, hptr⟩ :=
    compute_layout_blocks plan cs fuel res h
  have hx : ∀ (j : ℕ) (b : List PositionedNode), blocks[j]? = some b →
      ∀ q ∈ b, q.x = col_x (0 + j) := by
    intro j b hj q hq
    have hjlt : j < (sorted_levels_list levels).length := by
      rw [← hlen]
      exact (List.getElem?_eq_some.mp hj).1
    obtain ⟨lv, b', h1, h2, h3⟩ := hptr j hjlt
    rw [hj] at h2
    cases h2
    rw [Nat.zero_add]
    exact block_x_mem _ _ _ _ _ h3 q hq
  have hfilter := filter_flatten_blocks blocks 0 hx v
  rw [← hflat] at hfilter
  rcases hfilter with hnil | ⟨j, b, hj, hv, hfil⟩
  · rw [hp] at hnil
    cases hnil
  · rw [hp] at hfil
    have hfil2 : b = [p] := hfil.symm
    have hjlt : j < (sorted_levels_list levels).length := by
      rw [← hlen]
      exact (List.getElem?_eq_some.mp hj).1
    obtain ⟨lv, b', h1, h2, h3⟩ := hptr j hjlt
    rw [hj] at h2
    cases h2
    obtain ⟨hblen, hbptr⟩ := place_rows_char _ _ _ _ _ h3
    have hscl : (sorted_column (build_columns levels) lv).length = 1 := by
      rw [← hblen, hfil2]
      rfl
    have h0 : 0 < (sorted_column (build_columns levels) lv).length := by omega
    obtain ⟨id, n, hb1, hb2, hb3⟩ := hbptr 0 h0
    rw [hfil2] at hb3
    have hb3' : p = position_node n (col_x j)
        (col_y_offset res.height (sorted_column (build_columns levels) lv).length
          + (0 : ℚ) * NODE_SPACING.2) := by
      have : ([p] : List PositionedNode)[0]? = some p := rfl
      rw [this] at hb3
      cases hb3
      norm_num
    rw [hb3']
    simp only [position_node, hscl, col_y_offset, MARGIN, NODE_SPACING]
    norm_num

/-! ### Concrete evaluations used by witnesses -/

/-- The layout the engine computes for `singlePlan` on the default canvas. -/
def singleResult : LayoutResult :=
  ⟨800, 600, [⟨"a", "A", "process", [], 60, 230⟩], []⟩

/-- The layout the engine computes for `fanPlan` on the default canvas. -/
def fanResult : LayoutResult :=
  ⟨800, 600,
    [⟨"a", "A", "process", [], 60, 230⟩,
     ⟨"b", "B", "process", [], 260, 230⟩,
     ⟨"c", "C", "process", [], 260, 370⟩],
    [⟨"a", "b", none⟩, ⟨"a", "c", none⟩]⟩

theorem single_eval : compute_layout singlePlan none 1 = some (Except.ok singleResult) := by
  show compute_layout singlePlan none (0 + 1) = _
  norm_num +decide [compute_layout, assign_layers, seed_queue, run_layers, relax_neighbors,
    build_incoming, build_outgoing, build_columns, node_map, place_levels, place_rows,
    alGet, alSet, alSetdefault, alPush, MARGIN, NODE_SPACING, DEFAULT_CANVAS_SIZE,
    singlePlan, nodeA, singleResult, List.insertionSort, List.orderedInsert, max_def]

theorem fan_assign_eval : assign_layers fanPlan 3 =
    some (Except.ok [("a", 0), ("b", 1), ("c", 1)]) := by
  show assign_layers fanPlan (0 + 1 + 1 + 1) = _
  norm_num +decide [assign_layers, seed_queue, run_layers, relax_neighbors,
    build_incoming, build_outgoing, alGet, alSet, alSetdefault, alPush,
    fanPlan, nodeA, nodeB, nodeC]

theorem fan_eval : compute_layout fanPlan none 3 = some (Except.ok fanResult) := by
  show compute_layout fanPlan none (0 + 1 + 1 + 1) = _
  norm_num +decide [compute_layout, assign_layers, seed_queue, run_layers, relax_neighbors,
    build_incoming, build_outgoing, build_columns, node_map, place_levels, place_rows,
    alGet, alSet, alSetdefault, alPush, MARGIN, NODE_SPACING, DEFAULT_CANVAS_SIZE,
    fanPlan, nodeA, nodeB, nodeC, fanResult, List.insertionSort, List.orderedInsert, max_def]

/-- Witness for C6 at the fan-out plan, column x = 260 (layer {b, c}). -/
theorem claim_C6_layer_stacking_witness :
    compute_layout fanPlan none 3 = some (Except.ok fanResult) ∧
    ((fanResult.nodes.filter (fun p => p.x = 260)).Pairwise
        (fun p q => p.identifier < q.identifier) ∧
      (∀ i : ℕ, i < (fanResult.nodes.filter (fun p => p.x = 260)).length →
        ∃ p, (fanResult.nodes.filter (fun p => p.x = 260))[i]? = some p ∧
          p.y = max 60 ((fanResult.height - 140 *
              ((max 1 ((fanResult.nodes.filter (fun q => q.x = 260)).length - 1) : ℕ) : ℚ)) / 2)
            + (i : ℚ) * 140)) :=
  ⟨fan_eval, claim_C6_layer_stacking fanPlan none 3 fanResult fan_eval 260⟩

/-- Witness for C7 at the fan-out plan. -/
theorem claim_C7_columns_consecutive_witness :
    assign_layers fanPlan 3 = some (Except.ok [("a", 0), ("b", 1), ("c", 1)]) ∧
    compute_layout fanPlan none 3 = some (Except.ok fanResult) ∧
    ((sorted_levels_list [("a", 0), ("b", 1), ("c", 1)]).Pairwise (fun a b : ℕ => a < b) ∧
      (∀ p ∈ fanResult.nodes, ∃ (i : ℕ) (lv : ℕ),
          (sorted_levels_list [("a", 0), ("b", 1), ("c", 1)])[i]? = some lv ∧
          alGet [("a", 0), ("b", 1), ("c", 1)] p.identifier = some lv ∧
          p.x = 60 + (i : ℚ) * 200) ∧
      (∀ i, i < (sorted_levels_list [("a", 0), ("b", 1), ("c", 1)]).length →
          ∃ p ∈ fanResult.nodes, p.x = 60 + (i : ℚ) * 200)) :=
  ⟨fan_assign_eval, fan_eval,
    claim_C7_columns_consecutive fanPlan none 3 [("a", 0), ("b", 1), ("c", 1)] fanResult
      fan_assign_eval fan_eval⟩

/-- Witness for C8 at the fan-out plan. -/
theorem claim_C8_amended_witness :
    (fanPlan.nodes.map (·.identifier)).Nodup ∧
    compute_layout fanPlan none 3 = some (Except.ok fanResult) ∧
    (fanResult.edges = fanPlan.edges ∧
      (fanResult.nodes.map (·.identifier)).Nodup ∧
      List.Perm (fanResult.nodes.map forget_position) fanPlan.nodes) :=
  ⟨by decide, fan_eval,
    claim_C8_amended fanPlan none 3 fanResult (by decide) fan_eval⟩

/-- Witness for C10 at the fan-out plan. -/
theorem claim_C10_output_globally_sorted_witness :
    compute_layout fanPlan none 3 = some (Except.ok fanResult) ∧
    fanResult.nodes.Pairwise (fun p q => p.x < q.x ∨ (p.x = q.x ∧ p.identifier < q.identifier)) :=
  ⟨fan_eval, claim_C10_output_globally_sorted fanPlan none 3 fanResult fan_eval⟩

/-- Witness for the amended C4 at the single-node plan. -/
theorem claim_C4_amended_single_layer_y_witness :
    compute_layout singlePlan none 1 = some (Except.ok singleResult) ∧
    singleResult.nodes.filter (fun q => q.x = 60) = [⟨"a", "A", "process", [], 60, 230⟩] ∧
    (⟨"a", "A", "process", [], 60, 230⟩ : PositionedNode).y =
      max 60 ((singleResult.height - 140) / 2) := by
  have hfilt : singleResult.nodes.filter (fun q => q.x = 60) =
      [⟨"a", "A", "process", [], 60, 230⟩] := by
    norm_num [singleResult, List.filter_cons, decide_eq_true_eq]
  exact ⟨single_eval, hfilt,
    claim_C4_amended_single_layer_y singlePlan none 1 singleResult 60 _ single_eval hfilt⟩

/-- C8 counterexample: the claim quantifies over all non-pathological
plans including the empty one, but on the empty plan `compute_layout`
raises `IndexError` instead of returning a Layout Result covering every
input node. -/
theorem claim_C8_counterexample :
    compute_layout emptyPlan none 0 = some (Except.error PyErr.indexError) := rfl

/-! ### Termination of the layering loop on ranked (acyclic) graphs -/

/-- Acyclicity of an edge list in topological-ranking form: some rank
function strictly increases along every edge.  A finite directed graph
admits such a ranking exactly when it has no directed cycle. -/
def EdgeRanking (E : List FigureEdge) (rank : String → ℕ) : Prop :=
  ∀ e ∈ E, rank e.source < rank e.target

/-- The outgoing-adjacency list of one node. -/
def outList (E : List FigureEdge) (id : String) : List String :=
  (alGet (build_outgoing E) id).getD []

/-- Potential of a `levels` table: how far each watched identifier still
is below the bound `B`. -/
def levelsPot (B : ℕ) (W : List String) (levels : List (String × ℕ)) : ℕ :=
  (W.map (fun id => B - (alGet levels id).getD 0)).sum

theorem sum_lt_of_pointwise_update : ∀ (W : List String), W.Nodup →
    ∀ (t : String), t ∈ W → ∀ (f g : String → ℕ),
    (∀ x ∈ W, x ≠ t → g x = f x) → g t < f t →
    (W.map g).sum < (W.map f).sum := by
  intro W
  induction W with
  | nil =>
    intro _ t ht
    cases ht
  | cons w rest ih =>
    intro hW t ht f g hoff hlt
    rw [List.map_cons, List.map_cons, List.sum_cons, List.sum_cons]
    rcases List.mem_cons.mp ht with rfl | ht
    · have heq : rest.map g = rest.map f := by
        refine List.map_congr_left ?_
        intro x hx
        refine hoff x (List.mem_cons_of_mem _ hx) ?_
        intro hxt
        subst hxt
        exact (List.nodup_cons.mp hW).1 hx
      rw [heq]
      omega
    · have hwne : w ≠ t := by
        intro hwt
        subst hwt
        exact (List.nodup_cons.mp hW).1 ht
      rw [hoff w (List.mem_cons_self _ _) hwne]
      have := ih (List.nodup_cons.mp hW).2 t ht f g
        (fun x hx hxt => hoff x (List.mem_cons_of_mem _ hx) hxt) hlt
      omega

theorem levelsPot_alSet_lt (B : ℕ) (W : List String) (hW : W.Nodup)
    (levels : List (String × ℕ)) (t : String) (ht : t ∈ W) (v : ℕ)
    (hvB : v ≤ B) (hold : (alGet levels t).getD 0 < v) :
    levelsPot B W (alSet levels t v) < levelsPot B W levels := by
  refine sum_lt_of_pointwise_update W hW t ht _ _ ?_ ?_
  · intro x hx hxt
    rw [alGet_alSet_ne _ hxt]
  · rw [alGet_alSet_self]
    simp only [Option.getD_some]
    omega

theorem relax_pot (L B : ℕ) (W : List String) (hW : W.Nodup) :
    ∀ (ns : List String) (levels : List (String × ℕ)) (queue : List String),
    (∀ t ∈ ns, t ∈ W ∧ L + 1 ≤ B) →
    (relax_neighbors L ns levels queue).2.length +
        levelsPot B W (relax_neighbors L ns levels queue).1 ≤
      queue.length + levelsPot B W levels := by
  intro ns
  induction ns with
  | nil => exact fun levels queue hns => le_refl _
  | cons nb rest ih =>
    intro levels queue hns
    obtain ⟨hnbW, hnbB⟩ := hns nb (List.mem_cons_self _ _)
    have hrest : ∀ t ∈ rest, t ∈ W ∧ L + 1 ≤ B :=
      fun t ht => hns t (List.mem_cons_of_mem _ ht)
    cases halt : alGet levels nb with
    | none =>
      rw [relax_cons_new L rest queue halt]
      have hpot : levelsPot B W (alSet levels nb (L + 1)) < levelsPot B W levels := by
        refine levelsPot_alSet_lt B W hW levels nb hnbW (L + 1) hnbB ?_
        rw [halt]
        simp only [Option.getD_none]
        omega
      have := ih (alSet levels nb (L + 1)) (queue ++ [nb]) hrest
      rw [List.length_append] at this
      simp only [List.length_singleton] at this
      omega
    | some w =>
      by_cases hv : L + 1 > w
      · rw [relax_cons_lt L rest queue halt hv]
        have hpot : levelsPot B W (alSet levels nb (L + 1)) < levelsPot B W levels := by
          refine levelsPot_alSet_lt B W hW levels nb hnbW (L + 1) hnbB ?_
          rw [halt]
          simp only [Option.getD_some]
          omega
        have := ih (alSet levels nb (L + 1)) (queue ++ [nb]) hrest
        rw [List.length_append] at this
        simp only [List.length_singleton] at this
        omega
      · rw [relax_cons_ge L rest queue halt hv]
        exact ih levels queue hrest

/-- Loop invariant of `run_layers` on a ranked graph: `E` are the edges,
`nodeIds` the declared identifiers, `rank` a topological ranking. -/
structure RunInv (E : List FigureEdge) (nodeIds : List String) (rank : String → ℕ)
    (levels : List (String × ℕ)) (queue : List String) : Prop where
  keys_nodup : (alKeys levels).Nodup
  keys_sub : ∀ id, (alGet levels id).isSome → id ∈ nodeIds
  queue_sub : ∀ q ∈ queue, (alGet levels q).isSome
  rank_bound : ∀ id v, alGet levels id = some v → v ≤ rank id
  edge_prop : ∀ id v, alGet levels id = some v →
    id ∈ queue ∨ ∀ t ∈ outList E id, ∃ vt, alGet levels t = some vt ∧ v + 1 ≤ vt
  unreached : ∀ n ∈ nodeIds, alGet levels n = none →
    ∃ e ∈ E, e.target = n ∧ (alGet levels e.source = none ∨ e.source ∈ queue)

theorem run_step_inv (E : List FigureEdge) (nodeIds : List String) (rank : String → ℕ)
    (HE : ∀ e ∈ E, e.source ∈ nodeIds ∧ e.target ∈ nodeIds)
    (HR : EdgeRanking E rank)
    (levels : List (String × ℕ)) (c : String) (rest : List String) (L : ℕ)
    (hc : alGet levels c = some L)
    (hinv : RunInv E nodeIds rank levels (c :: rest)) :
    RunInv E nodeIds rank
      (relax_neighbors L (outList E c) levels rest).1
      (relax_neighbors L (outList E c) levels rest).2 := by
  have hns : ∀ t ∈ outList E c, t ∈ nodeIds ∧ L + 1 ≤ rank t := by
    intro t ht
    obtain ⟨e, he, hes, het⟩ := (mem_build_outgoing E c t).mp ht
    refine ⟨het ▸ (HE e he).2, ?_⟩
    have h1 : rank e.source < rank e.target := HR e he
    have h2 : L ≤ rank c := hinv.rank_bound c L hc
    rw [hes] at h1
    rw [het] at h1
    omega
  have hcnotns : c ∉ outList E c := by
    intro hmem
    obtain ⟨e, he, hes, het⟩ := (mem_build_outgoing E c c).mp hmem
    have hlt := HR e he
    rw [hes, het] at hlt
    omega
  obtain ⟨added, hq, hadded⟩ := relax_queue_suffix L (outList E c) levels rest
  refine ⟨relax_nodup L _ levels rest hinv.keys_nodup, ?_, ?_, ?_, ?_, ?_⟩
  · intro id hid
    obtain ⟨v', hv'⟩ := Option.isSome_iff_exists.mp hid
    rcases relax_get_cases L _ levels rest id v' hv' with h1 | h1
    · refine hinv.keys_sub id ?_
      rw [h1]
      rfl
    · exact (hns id h1.1).1
  · intro q hqm
    rw [hq] at hqm
    rcases List.mem_append.mp hqm with hqm | hqm
    · obtain ⟨v, hv⟩ := Option.isSome_iff_exists.mp
        (hinv.queue_sub q (List.mem_cons_of_mem _ hqm))
      obtain ⟨v', hv', _⟩ := relax_get_mono L _ levels rest q v hv
      rw [hv']
      rfl
    · exact (hadded q hqm).2
  · intro id v hv
    rcases relax_get_cases L _ levels rest id v hv with h1 | h1
    · exact hinv.rank_bound id v h1
    · rw [h1.2]
      exact (hns id h1.1).2
  · intro id v hv
    by_cases hidc : id = c
    · subst hidc
      rcases relax_get_cases L _ levels rest id v hv with h1 | h1
      · right
        rw [hc] at h1
        cases h1
        intro t ht
        obtain ⟨vt, hvt, hge⟩ := relax_relaxed_ge L _ levels rest t ht
        exact ⟨vt, hvt, hge⟩
      · exact absurd h1.1 hcnotns
    · by_cases hch : alGet (relax_neighbors L (outList E c) levels rest).1 id = alGet levels id
      · rw [hch] at hv
        rcases hinv.edge_prop id v hv with h1 | h1
        · rcases List.mem_cons.mp h1 with h2 | h2
          · exact absurd h2 hidc
          · left
            rw [hq]
            exact List.mem_append.mpr (Or.inl h2)
        · right
          intro t ht
          obtain ⟨vt, hvt, hge⟩ := h1 t ht
          obtain ⟨vt', hvt', hmono⟩ := relax_get_mono L _ levels rest t vt hvt
          exact ⟨vt', hvt', by omega⟩
      · left
        exact relax_changed_in_queue L _ levels rest id hch
  · intro n hn hnone
    obtain ⟨hnone0, hnns⟩ := relax_get_none L _ levels rest n hnone
    obtain ⟨e, he, het, hsrc⟩ := hinv.unreached n hn hnone0
    refine ⟨e, he, het, ?_⟩
    rcases hsrc with hsrc | hsrc
    · by_cases hch : alGet (relax_neighbors L (outList E c) levels rest).1 e.source =
          alGet levels e.source
      · left
        rw [hch]
        exact hsrc
      · right
        exact relax_changed_in_queue L _ levels rest e.source hch
    · rcases List.mem_cons.mp hsrc with h2 | h2
      · exfalso
        refine hnns ((mem_build_outgoing E c n).mpr ⟨e, he, h2, het⟩)
      · right
        rw [hq]
        exact List.mem_append.mpr (Or.inl h2)

theorem run_layers_terminates (E : List FigureEdge) (nodeIds : List String) (rank : String → ℕ)
    (B : ℕ) (W : List String) (hW : W.Nodup) (hWmem : ∀ id ∈ nodeIds, id ∈ W)
    (hB : ∀ id ∈ nodeIds, rank id + 1 ≤ B)
    (HE : ∀ e ∈ E, e.source ∈ nodeIds ∧ e.target ∈ nodeIds)
    (HR : EdgeRanking E rank) :
    ∀ (fuel : ℕ) (levels : List (String × ℕ)) (queue : List String),
    RunInv E nodeIds rank levels queue →
    queue.length + levelsPot B W levels < fuel →
    ∃ levelsR, run_layers (build_outgoing E) fuel levels queue = some (Except.ok levelsR) ∧
      RunInv E nodeIds rank levelsR [] := by
  intro fuel
  induction fuel with
  | zero =>
    intro levels queue hinv hpot
    omega
  | succ n ih =>
    intro levels queue hinv hpot
    cases queue with
    | nil => exact ⟨levels, rfl, hinv⟩
    | cons c rest =>
      obtain ⟨L, hc⟩ := Option.isSome_iff_exists.mp (hinv.queue_sub c (List.mem_cons_self _ _))
      have hstep : run_layers (build_outgoing E) (n + 1) levels (c :: rest) =
          run_layers (build_outgoing E) n
            (relax_neighbors L (outList E c) levels rest).1
            (relax_neighbors L (outList E c) levels rest).2 := by
        simp only [run_layers, hc]
        rfl
      rw [hstep]
      have hinv' := run_step_inv E nodeIds rank HE HR levels c rest L hc hinv
      have hns : ∀ t ∈ outList E c, t ∈ W ∧ L + 1 ≤ B := by
        intro t ht
        obtain ⟨e, he, hes, het⟩ := (mem_build_outgoing E c t).mp ht
        have htn : t ∈ nodeIds := het ▸ (HE e he).2
        refine ⟨hWmem t htn, ?_⟩
        have h1 : rank e.source < rank e.target := HR e he
        have h2 : L ≤ rank c := hinv.rank_bound c L hc
        have h3 : rank t + 1 ≤ B := hB t htn
        rw [hes] at h1
        rw [het] at h1
        omega
      have hpotstep := relax_pot L B W hW (outList E c) levels rest hns
      refine ih _ _ hinv' ?_
      have hlen : (c :: rest).length = rest.length + 1 := rfl
      omega

theorem exists_rank_min (rank : String → ℕ) :
    ∀ (S : List String), S ≠ [] → ∃ m ∈ S, ∀ x ∈ S, rank m ≤ rank x := by
  intro S
  induction S with
  | nil => exact fun h => absurd rfl h
  | cons s rest ih =>
    intro _
    cases rest with
    | nil =>
      refine ⟨s, List.mem_cons_self _ _, ?_⟩
      intro x hx
      rcases List.mem_cons.mp hx with rfl | hx
      · exact le_refl _
      · cases hx
    | cons r rest2 =>
      obtain ⟨m, hm, hmin⟩ := ih (by simp)
      by_cases hc : rank s ≤ rank m
      · refine ⟨s, List.mem_cons_self _ _, ?_⟩
        intro x hx
        rcases List.mem_cons.mp hx with rfl | hx
        · exact le_refl _
        · exact le_trans hc (hmin x hx)
      · refine ⟨m, List.mem_cons_of_mem _ hm, ?_⟩
        intro x hx
        rcases List.mem_cons.mp hx with rfl | hx
        · omega
        · exact hmin x hx

theorem final_covers (E : List FigureEdge) (nodeIds : List String) (rank : String → ℕ)
    (HE : ∀ e ∈ E, e.source ∈ nodeIds ∧ e.target ∈ nodeIds)
    (HR : EdgeRanking E rank)
    (levels : List (String × ℕ)) (hinv : RunInv E nodeIds rank levels []) :
    ∀ n ∈ nodeIds, (alGet levels n).isSome := by
  by_contra hcon
  push_neg at hcon
  obtain ⟨n0, hn0, hn0none⟩ := hcon
  have hSne : nodeIds.filter (fun n => (alGet levels n).isNone) ≠ [] := by
    intro hS
    have : n0 ∈ nodeIds.filter (fun n => (alGet levels n).isNone) := by
      rw [List.mem_filter]
      exact ⟨hn0, by simp [Option.isNone_iff_eq_none, Option.not_isSome_iff_eq_none.mp hn0none]⟩
    rw [hS] at this
    cases this
  obtain ⟨m, hmS, hmin⟩ := exists_rank_min rank _ hSne
  obtain ⟨hmN, hmnone⟩ := List.mem_filter.mp hmS
  have hmnone' : alGet levels m = none := by
    simpa [Option.isNone_iff_eq_none] using hmnone
  obtain ⟨e, he, het, hsrc⟩ := hinv.unreached m hmN hmnone'
  rcases hsrc with hsrc | hsrc
  · have hsN : e.source ∈ nodeIds := (HE e he).1
    have hsS : e.source ∈ nodeIds.filter (fun n => (alGet levels n).isNone) := by
      rw [List.mem_filter]
      exact ⟨hsN, by simp [hsrc]⟩
    have h1 := hmin e.source hsS
    have h2 := HR e he
    rw [het] at h2
    omega
  · cases hsrc

theorem final_edge_prop (E : List FigureEdge) (nodeIds : List String) (rank : String → ℕ)
    (HE : ∀ e ∈ E, e.source ∈ nodeIds ∧ e.target ∈ nodeIds)
    (HR : EdgeRanking E rank)
    (levels : List (String × ℕ)) (hinv : RunInv E nodeIds rank levels []) :
    ∀ e ∈ E, ∃ vs vt, alGet levels e.source = some vs ∧
      alGet levels e.target = some vt ∧ vs + 1 ≤ vt := by
  intro e he
  obtain ⟨vs, hvs⟩ := Option.isSome_iff_exists.mp
    (final_covers E nodeIds rank HE HR levels hinv e.source (HE e he).1)
  rcases hinv.edge_prop e.source vs hvs with h1 | h1
  · cases h1
  · obtain ⟨vt, hvt, hge⟩ := h1 e.target ((mem_build_outgoing E e.source e.target).mpr
      ⟨e, he, rfl, rfl⟩)
    exact ⟨vs, vt, hvs, hvt, hge⟩

theorem seed_init_inv (plan : FigurePlan) (rank : String → ℕ) :
    RunInv plan.edges (plan.nodes.map (·.identifier)) rank
      (seed_queue (build_incoming plan.edges) plan.nodes).1
      (seed_queue (build_incoming plan.edges) plan.nodes).2 := by
  obtain ⟨hnodup, hzero, hiff⟩ := seed_queue_spec (build_incoming plan.edges) plan.nodes
  refine ⟨hnodup, ?_, ?_, ?_, ?_, ?_⟩
  · intro id hid
    obtain ⟨n, hn, hnid, _⟩ := (seed_queue_mem _ _ id).mp ((hiff id).mp hid)
    exact List.mem_map.mpr ⟨n, hn, hnid⟩
  · intro q hq
    exact (hiff q).mpr hq
  · intro id v hv
    rw [hzero id v hv]
    omega
  · intro id v hv
    left
    refine (hiff id).mp ?_
    rw [hv]
    rfl
  · intro n hn hnone
    have hnq : n ∉ (seed_queue (build_incoming plan.edges) plan.nodes).2 := by
      intro hmem
      have := (hiff n).mpr hmem
      rw [hnone] at this
      cases this
    obtain ⟨nd, hnd, hndid⟩ := List.mem_map.mp hn
    have hinc : ¬ alGet (build_incoming plan.edges) n = none := by
      intro hincn
      exact hnq ((seed_queue_mem _ _ n).mpr ⟨nd, hnd, hndid, hincn⟩)
    have hincs : (alGet (build_incoming plan.edges) n).isSome := by
      cases hi : alGet (build_incoming plan.edges) n with
      | none => exact absurd hi hinc
      | some l => rfl
    obtain ⟨e, he, het⟩ := (isSome_build_incoming plan.edges n).mp hincs
    refine ⟨e, he, het, ?_⟩
    by_cases hs : alGet (seed_queue (build_incoming plan.edges) plan.nodes).1 e.source = none
    · exact Or.inl hs
    · right
      refine (hiff e.source).mp ?_
      cases hi : alGet (seed_queue (build_incoming plan.edges) plan.nodes).1 e.source with
      | none => exact absurd hi hs
      | some v => rfl

theorem seed_queue_nonempty (plan : FigurePlan) (rank : String → ℕ)
    (hne : plan.nodes ≠ [])
    (HE : ∀ e ∈ plan.edges, e.source ∈ plan.nodes.map (·.identifier) ∧
      e.target ∈ plan.nodes.map (·.identifier))
    (HR : EdgeRanking plan.edges rank) :
    (seed_queue (build_incoming plan.edges) plan.nodes).2 ≠ [] := by
  have hidsne : plan.nodes.map (·.identifier) ≠ [] := by
    intro hm
    exact hne (List.map_eq_nil_iff.mp hm)
  obtain ⟨m, hm, hmin⟩ := exists_rank_min rank _ hidsne
  obtain ⟨nd, hnd, hndid⟩ := List.mem_map.mp hm
  have hminc : alGet (build_incoming plan.edges) m = none := by
    cases hi : alGet (build_incoming plan.edges) m with
    | none => rfl
    | some l =>
      exfalso
      have hsome : (alGet (build_incoming plan.edges) m).isSome := by
        rw [hi]
        rfl
      obtain ⟨e, he, het⟩ := (isSome_build_incoming plan.edges m).mp hsome
      have hsN : e.source ∈ plan.nodes.map (·.identifier) := (HE e he).1
      have h1 := hmin e.source hsN
      have h2 := HR e he
      rw [het] at h2
      omega
  intro hq
  have : m ∈ (seed_queue (build_incoming plan.edges) plan.nodes).2 :=
    (seed_queue_mem _ _ m).mpr ⟨nd, hnd, hndid, hminc⟩
  rw [hq] at this
  cases this

theorem rank_le_fold (rank : String → ℕ) :
    ∀ (l : List String), ∀ id ∈ l, rank id ≤ (l.map rank).foldr max 0 := by
  intro l
  induction l with
  | nil => exact fun id h => absurd h (List.not_mem_nil id)
  | cons x rest ih =>
    intro id hid
    rw [List.map_cons, List.foldr_cons]
    rcases List.mem_cons.mp hid with rfl | hid
    · exact le_max_left _ _
    · exact le_trans (ih id hid) (le_max_right _ _)

theorem isSome_of_pair_mem {κ β : Type} [DecidableEq κ] {m : List (κ × β)} {k : κ} {v : β}
    (h : (k, v) ∈ m) : (alGet m k).isSome :=
  (alGet_isSome_iff_mem m k).mpr (List.mem_map.mpr ⟨(k, v), h, rfl⟩)

theorem res_node_column (plan : FigurePlan) (cs : Option (ℚ × ℚ)) (fuel : ℕ)
    (levels : List (String × ℕ)) (res : LayoutResult)
    (ha : assign_layers plan fuel = some (Except.ok levels))
    (h : compute_layout plan cs fuel = some (Except.ok res)) :
    ∀ p ∈ res.nodes, ∃ (i : ℕ) (lv : ℕ), (sorted_levels_list levels)[i]? = some lv ∧
      alGet levels p.identifier = some lv ∧ p.x = col_x i := by
  obtain ⟨levels', blocks, ha', hw, hh, he, hflat, hlen, hptr⟩ :=
    compute_layout_blocks plan cs fuel res h
  rw [ha] at ha'
  cases ha'
  obtain ⟨hnodup, hcov⟩ := assign_layers_ok_levels plan fuel levels ha
  intro p hp
  rw [hflat] at hp
  obtain ⟨b, hbmem, hpb⟩ := List.mem_flatten.mp hp
  obtain ⟨j, hj⟩ := (mem_iff_getElem_opt blocks b).mp hbmem
  have hjlt : j < (sorted_levels_list levels).length := by
    rw [← hlen]
    exact (List.getElem?_eq_some.mp hj).1
  obtain ⟨lv, b', h1, h2, h3⟩ := hptr j hjlt
  rw [hj] at h2
  cases h2
  refine ⟨j, lv, h1, ?_, block_x_mem _ _ _ _ _ h3 p hpb⟩
  have hidmem : p.identifier ∈ sorted_column (build_columns levels) lv := by
    have hids : b.map (·.identifier) = sorted_column (build_columns levels) lv :=
      block_ids _ _ _ _ _ (fun id n hn => (alGet_node_map_cases plan id n hn).1) h3
    rw [← hids]
    exact List.mem_map.mpr ⟨p, hpb, rfl⟩
  have hraw : p.identifier ∈ (alGet (build_columns levels) lv).getD [] :=
    (List.perm_insertionSort (fun a b : String => a ≤ b)
      ((alGet (build_columns levels) lv).getD [])).mem_iff.mp hidmem
  exact alGet_of_mem_nodup hnodup ((mem_build_columns levels lv p.identifier).mp hraw)

/-- C5: for every plan whose edge endpoints all appear among its nodes and
whose edge list admits a strictly increasing rank function (the
topological-ranking form of acyclicity), with at least one node (the
empty plan instead raises `IndexError`, see C2), the layering loop
terminates with enough fuel; the resulting layers satisfy
`layer(target) ≥ layer(source) + 1` on every edge, and in the emitted
layout every edge points strictly rightwards: `x(target) > x(source)`. -/
theorem claim_C5_acyclic_layer_monotonicity (plan : FigurePlan) (cs : Option (ℚ × ℚ))
    (rank : String → ℕ)
    (hne : plan.nodes ≠ [])
    (HE : ∀ e ∈ plan.edges, e.source ∈ plan.nodes.map (·.identifier) ∧
      e.target ∈ plan.nodes.map (·.identifier))
    (HR : EdgeRanking plan.edges rank) :
    ∃ (fuel : ℕ) (levels : List (String × ℕ)) (res : LayoutResult),
      assign_layers plan fuel = some (Except.ok levels) ∧
      compute_layout plan cs fuel = some (Except.ok res) ∧
      (∀ e ∈ plan.edges, ∃ vs vt, alGet levels e.source = some vs ∧
        alGet levels e.target = some vt ∧ vs + 1 ≤ vt) ∧
      (∀ e ∈ plan.edges, ∀ p ∈ res.nodes, ∀ q ∈ res.nodes,
        p.identifier = e.source → q.identifier = e.target → p.x < q.x) := by
  have hB : ∀ id ∈ plan.nodes.map (·.identifier), rank id + 1 ≤
      ((plan.nodes.map (·.identifier)).map rank).foldr max 0 + 1 := by
    intro id hid
    have := rank_le_fold rank _ id hid
    omega
  have hinv0 := seed_init_inv plan rank
  have hqne := seed_queue_nonempty plan rank hne HE HR
  obtain ⟨levelsR, hrun, hfinv⟩ := run_layers_terminates plan.edges
    (plan.nodes.map (·.identifier)) rank
    (((plan.nodes.map (·.identifier)).map rank).foldr max 0 + 1)
    ((plan.nodes.map (·.identifier)).dedup)
    (List.nodup_dedup _) (fun id h => List.mem_dedup.mpr h) hB HE HR
    ((seed_queue (build_incoming plan.edges) plan.nodes).2.length +
      levelsPot (((plan.nodes.map (·.identifier)).map rank).foldr max 0 + 1)
        ((plan.nodes.map (·.identifier)).dedup)
        (seed_queue (build_incoming plan.edges) plan.nodes).1 + 1)
    (seed_queue (build_incoming plan.edges) plan.nodes).1
    (seed_queue (build_incoming plan.edges) plan.nodes).2
    hinv0 (by omega)
  have hqbool : ¬ (seed_queue (build_incoming plan.edges) plan.nodes).2.isEmpty := by
    rw [List.isEmpty_iff]
    exact hqne
  have hassign : assign_layers plan
      ((seed_queue (build_incoming plan.edges) plan.nodes).2.length +
        levelsPot (((plan.nodes.map (·.identifier)).map rank).foldr max 0 + 1)
          ((plan.nodes.map (·.identifier)).dedup)
          (seed_queue (build_incoming plan.edges) plan.nodes).1 + 1) =
      some (Except.ok (plan.nodes.foldl (fun lv n => alSetdefault lv n.identifier 0) levelsR)) := by
    simp only [assign_layers]
    rw [if_neg hqbool, hrun]
  have hedge : ∀ e ∈ plan.edges, ∃ vs vt,
      alGet (plan.nodes.foldl (fun lv n => alSetdefault lv n.identifier 0) levelsR) e.source = some vs ∧
      alGet (plan.nodes.foldl (fun lv n => alSetdefault lv n.identifier 0) levelsR) e.target = some vt ∧
      vs + 1 ≤ vt := by
    intro e he
    obtain ⟨vs, vt, h1, h2, h3⟩ := final_edge_prop plan.edges _ rank HE HR levelsR hfinv e he
    exact ⟨vs, vt, setdefault_fold_get_some _ _ _ _ h1, setdefault_fold_get_some _ _ _ _ h2, h3⟩
  have hkeys : ∀ id, (alGet (plan.nodes.foldl (fun lv n => alSetdefault lv n.identifier 0) levelsR) id).isSome →
      id ∈ plan.nodes.map (·.identifier) := by
    intro id hid
    obtain ⟨v, hv⟩ := Option.isSome_iff_exists.mp hid
    rcases setdefault_fold_cases plan.nodes levelsR id v hv with h1 | h1
    · refine hfinv.keys_sub id ?_
      rw [h1]
      rfl
    · obtain ⟨_, n, hn, hnid⟩ := h1
      exact List.mem_map.mpr ⟨n, hn, hnid⟩
  have hlook : ∀ lv ∈ sorted_levels_list
      (plan.nodes.foldl (fun lv n => alSetdefault lv n.identifier 0) levelsR),
      ∀ id ∈ sorted_column (build_columns
        (plan.nodes.foldl (fun lv n => alSetdefault lv n.identifier 0) levelsR)) lv,
      (alGet (node_map plan) id).isSome := by
    intro lv _ id hid
    have hraw : id ∈ (alGet (build_columns
        (plan.nodes.foldl (fun lv n => alSetdefault lv n.identifier 0) levelsR)) lv).getD [] :=
      (List.perm_insertionSort (fun a b : String => a ≤ b) _).mem_iff.mp hid
    have hpm := (mem_build_columns _ lv id).mp hraw
    have hsome := isSome_of_pair_mem hpm
    have hidN := hkeys id hsome
    obtain ⟨n, hn, hnid⟩ := List.mem_map.mp hidN
    exact (isSome_node_map plan id).mpr ⟨n, hn, hnid⟩
  obtain ⟨out, blocks, hpl, hflat, hlen, hptr⟩ := place_levels_ok (node_map plan)
    (cs.getD DEFAULT_CANVAS_SIZE).2
    (build_columns (plan.nodes.foldl (fun lv n => alSetdefault lv n.identifier 0) levelsR))
    (sorted_levels_list (plan.nodes.foldl (fun lv n => alSetdefault lv n.identifier 0) levelsR))
    0 hlook
  have hcl : compute_layout plan cs
      ((seed_queue (build_incoming plan.edges) plan.nodes).2.length +
        levelsPot (((plan.nodes.map (·.identifier)).map rank).foldr max 0 + 1)
          ((plan.nodes.map (·.identifier)).dedup)
          (seed_queue (build_incoming plan.edges) plan.nodes).1 + 1) =
      some (Except.ok ⟨(cs.getD DEFAULT_CANVAS_SIZE).1, (cs.getD DEFAULT_CANVAS_SIZE).2,
        out, plan.edges⟩) := by
    have hunf : compute_layout plan cs
        ((seed_queue (build_incoming plan.edges) plan.nodes).2.length +
          levelsPot (((plan.nodes.map (·.identifier)).map rank).foldr max 0 + 1)
            ((plan.nodes.map (·.identifier)).dedup)
            (seed_queue (build_incoming plan.edges) plan.nodes).1 + 1) =
        match assign_layers plan
            ((seed_queue (build_incoming plan.edges) plan.nodes).2.length +
              levelsPot (((plan.nodes.map (·.identifier)).map rank).foldr max 0 + 1)
                ((plan.nodes.map (·.identifier)).dedup)
                (seed_queue (build_incoming plan.edges) plan.nodes).1 + 1) with
        | none => none
        | some (Except.error e) => some (Except.error e)
        | some (Except.ok levels) =>
          match place_levels (node_map plan) (cs.getD DEFAULT_CANVAS_SIZE).2 (build_columns levels)
              (sorted_levels_list levels) 0 with
          | Except.error e => some (Except.error e)
          | Except.ok ns => some (Except.ok ⟨(cs.getD DEFAULT_CANVAS_SIZE).1,
              (cs.getD DEFAULT_CANVAS_SIZE).2, ns, plan.edges⟩) := rfl
    rw [hunf, hassign]
    simp only []
    rw [hpl]
  refine ⟨_, _, _, hassign, hcl, hedge, ?_⟩
  intro e he p hp q hq hpid hqid
  obtain ⟨i, lvp, hi1, hi2, hix⟩ := res_node_column plan cs _ _ _ hassign hcl p hp
  obtain ⟨i', lvq, hj1, hj2, hjx⟩ := res_node_column plan cs _ _ _ hassign hcl q hq
  obtain ⟨vs, vt, hvs, hvt, hlt⟩ := hedge e he
  rw [hpid] at hi2
  rw [hqid] at hj2
  rw [hi2] at hvs
  rw [hj2] at hvt
  cases hvs
  cases hvt
  have hsorted := sorted_levels_list_sorted
    (plan.nodes.foldl (fun lv n => alSetdefault lv n.identifier 0) levelsR)
  rw [List.pairwise_iff_getElem] at hsorted
  have hilen := (List.getElem?_eq_some.mp hi1).1
  have hjlen := (List.getElem?_eq_some.mp hj1).1
  have hii : i < i' := by
    by_contra hcon
    push_neg at hcon
    rcases Nat.lt_or_ge i' i with hlt2 | hge
    · have := hsorted i' i hjlen hilen hlt2
      rw [(List.getElem?_eq_some.mp hi1).2, (List.getElem?_eq_some.mp hj1).2] at this
      omega
    · have : i = i' := by omega
      subst this
      rw [hi1] at hj1
      cases hj1
      omega
  rw [hix, hjx]
  exact col_x_lt hii

/-- A topological ranking of the chain a→b→c. -/
def chainRank : String → ℕ :=
  fun s => if s = ("a" : String) then 0 else if s = ("b" : String) then 1 else 2

/-- Witness for C5 at the linear chain of §8 Scenario A. -/
theorem claim_C5_acyclic_layer_monotonicity_witness :
    chainPlan.nodes ≠ [] ∧
    (∀ e ∈ chainPlan.edges, e.source ∈ chainPlan.nodes.map (·.identifier) ∧
      e.target ∈ chainPlan.nodes.map (·.identifier)) ∧
    EdgeRanking chainPlan.edges chainRank ∧
    (∃ (fuel : ℕ) (levels : List (String × ℕ)) (res : LayoutResult),
      assign_layers chainPlan fuel = some (Except.ok levels) ∧
      compute_layout chainPlan none fuel = some (Except.ok res) ∧
      (∀ e ∈ chainPlan.edges, ∃ vs vt, alGet levels e.source = some vs ∧
        alGet levels e.target = some vt ∧ vs + 1 ≤ vt) ∧
      (∀ e ∈ chainPlan.edges, ∀ p ∈ res.nodes, ∀ q ∈ res.nodes,
        p.identifier = e.source → q.identifier = e.target → p.x < q.x)) :=
  ⟨by decide, by decide, by
      unfold EdgeRanking chainRank
      decide,
    claim_C5_acyclic_layer_monotonicity chainPlan none chainRank (by decide) (by decide)
      (by unfold EdgeRanking chainRank; decide)⟩
